import Mathlib

/-!
Verification of the Transform stage of the milli document indexer
(`src/milli/src/update/index_documents/transform.rs`).

The Rust source is shallowly embedded: JSON values become the inductive
`JVal`, obkv records become association lists sorted by field id, the two
grenad sorters become insertion logs, and the persistent index (heed
databases) becomes the read-only `Database` structure.  Machine integers
are modelled as `Nat` with the explicit bounds the source enforces
(`u16` field-id space, `u32` document-id space).  Fallible Rust functions
return `Except Err`.

Collaborator code that lives in the same repository but outside the
provided source file (`FieldsIdsMap`, `into_del_add_obkv`,
`AvailableDocumentsIds`, `flatten_serde_json`, `json_depth_checker`, the
two grenad merge reducers) is modelled from the specification; each such
definition carries a doc comment starting with "Modelled from the spec".
-/

set_option linter.unusedVariables false

/-- A JSON value, as stored in obkv records.  Scalars other than strings
are abstracted to `prim`; only the object/array structure and the string
payloads matter to the Transform. -/
inductive JVal where
  | prim : Nat → JVal
  | str : String → JVal
  | arr : List JVal → JVal
  | obj : List (String × JVal) → JVal

/-- Boolean test: is this value a JSON object? -/
def JVal.isObjB : JVal → Bool
  | .obj _ => true
  | _ => false

/-- Boolean test: is this value a JSON array? -/
def JVal.isArrB : JVal → Bool
  | .arr _ => true
  | _ => false

mutual

/-- Structural boolean equality on `JVal`. -/
def JVal.beq : JVal → JVal → Bool
  | .prim a, .prim b => a == b
  | .str a, .str b => a == b
  | .arr as, .arr bs => JVal.beqList as bs
  | .obj as, .obj bs => JVal.beqObjList as bs
  | _, _ => false

/-- Pointwise `JVal.beq` on lists of values. -/
def JVal.beqList : List JVal → List JVal → Bool
  | [], [] => true
  | a :: as, b :: bs => JVal.beq a b && JVal.beqList as bs
  | _, _ => false

/-- Pointwise `JVal.beq` on key-value lists. -/
def JVal.beqObjList : List (String × JVal) → List (String × JVal) → Bool
  | [], [] => true
  | (k, a) :: as, (k2, b) :: bs => k == k2 && JVal.beq a b && JVal.beqObjList as bs
  | _, _ => false

end

/-- Member-wise induction principle for the nested inductive `JVal`. -/
theorem JVal.myInduction (motive : JVal → Prop)
    (hprim : ∀ n, motive (.prim n)) (hstr : ∀ s, motive (.str s))
    (harr : ∀ xs, (∀ x ∈ xs, motive x) → motive (.arr xs))
    (hobj : ∀ kvs, (∀ kv ∈ kvs, motive kv.2) → motive (.obj kvs)) : ∀ v, motive v
  | .prim n => hprim n
  | .str s => hstr s
  | .arr xs => harr xs (fun x hx => JVal.myInduction motive hprim hstr harr hobj x)
  | .obj kvs => hobj kvs (fun kv hkv => JVal.myInduction motive hprim hstr harr hobj kv.2)
termination_by v => sizeOf v
decreasing_by
  · have := List.sizeOf_lt_of_mem hx
    simp only [JVal.arr.sizeOf_spec]
    omega
  · have := List.sizeOf_lt_of_mem hkv
    obtain ⟨k, v'⟩ := kv
    simp only [JVal.obj.sizeOf_spec]
    simp only [Prod.mk.sizeOf_spec] at this ⊢
    omega

theorem JVal.beq_iff : ∀ a b : JVal, JVal.beq a b = true ↔ a = b := by
  intro a
  induction a using JVal.myInduction with
  | hprim n => intro b; cases b <;> simp [JVal.beq]
  | hstr s => intro b; cases b <;> simp [JVal.beq]
  | harr xs ih =>
      have hlist : ∀ ys, (JVal.beqList xs ys = true ↔ xs = ys) := by
        induction xs with
        | nil => intro ys; cases ys <;> simp [JVal.beqList]
        | cons x xs' ihx =>
            have ihx' := ihx (fun z hz => ih z (List.mem_cons_of_mem _ hz))
            intro ys
            cases ys with
            | nil => simp [JVal.beqList]
            | cons y ys' =>
                have hx := ih x (List.mem_cons_self _ _) y
                simp [JVal.beqList, hx, ihx' ys']
      intro b; cases b <;> simp [JVal.beq, hlist]
  | hobj kvs ih =>
      have hlist : ∀ ys, (JVal.beqObjList kvs ys = true ↔ kvs = ys) := by
        induction kvs with
        | nil => intro ys; cases ys <;> simp [JVal.beqObjList]
        | cons x xs' ihx =>
            have ihx' := ihx (fun z hz => ih z (List.mem_cons_of_mem _ hz))
            intro ys
            obtain ⟨k, v⟩ := x
            cases ys with
            | nil => simp [JVal.beqObjList]
            | cons y ys' =>
                obtain ⟨k2, v2⟩ := y
                have hx := ih (k, v) (List.mem_cons_self _ _) v2
                simp only [JVal.beqObjList, Bool.and_eq_true, beq_iff_eq, List.cons.injEq,
                  Prod.mk.injEq]
                rw [hx, ihx' ys']
                try tauto
      intro b; cases b <;> simp [JVal.beq, hlist]

instance : DecidableEq JVal := fun a b => decidable_of_iff _ (JVal.beq_iff a b)

instance : Inhabited JVal := ⟨.prim 0⟩

/-- Association-list lookup, the model of hash-map / btree-map `get`. -/
def alookup {α β : Type} [BEq α] (l : List (α × β)) (k : α) : Option β :=
  match l.find? (fun p => p.1 == k) with
  | some p => some p.2
  | none => none

/-- Association-list key removal, the model of map `remove`. -/
def aremove {α β : Type} [BEq α] (l : List (α × β)) (k : α) : List (α × β) :=
  l.filter (fun p => !(p.1 == k))

/-- Sorted insertion into a `RoaringBitmap`, modelled as a sorted list;
`d ∉ s` plays the role of the `insert` return value. -/
def bmInsert (d : Nat) : List Nat → List Nat
  | [] => [d]
  | x :: xs => if d < x then d :: x :: xs else if d = x then x :: xs else x :: bmInsert d xs

/-- Removal from a `RoaringBitmap` modelled as a list. -/
def bmRemove (d : Nat) (s : List Nat) : List Nat := s.filter (fun x => x != d)

/-- Byte-wise lexicographic order on strings, the order Rust uses to sort
`Vec<String>`. -/
def strLeCharList : List Char → List Char → Bool
  | [], _ => true
  | _ :: _, [] => false
  | c :: cs, d :: ds =>
      if c.toNat < d.toNat then true
      else if c.toNat = d.toNat then strLeCharList cs ds else false

/-- Lexicographic `≤` on strings. -/
def strLe (a b : String) : Bool := strLeCharList a.data b.data

/-- Propositional version of `strLe`, for use with `List.insertionSort`. -/
def strLeProp (a b : String) : Prop := strLe a b = true

instance : DecidableRel strLeProp := fun a b => instDecidableEqBool (strLe a b) true

theorem strLeCharList_total : ∀ a b, strLeCharList a b = true ∨ strLeCharList b a = true := by
  intro a
  induction a with
  | nil => intro b; left; rfl
  | cons c cs ih =>
      intro b
      cases b with
      | nil => right; rfl
      | cons d ds =>
          simp only [strLeCharList]
          rcases Nat.lt_trichotomy c.toNat d.toNat with h | h | h
          · left; simp [h]
          · have h' : ¬ c.toNat < d.toNat := by omega
            have h'' : ¬ d.toNat < c.toNat := by omega
            rcases ih ds with hl | hr
            · left; simp [h', h, hl]
            · right; simp [h'', h.symm, hr]
          · right; simp [h]

theorem strLeCharList_trans :
    ∀ a b c, strLeCharList a b = true → strLeCharList b c = true → strLeCharList a c = true := by
  intro a
  induction a with
  | nil => intro b c _ _; rfl
  | cons x xs ih =>
      intro b c hab hbc
      cases b with
      | nil => simp [strLeCharList] at hab
      | cons y ys =>
          cases c with
          | nil => simp [strLeCharList] at hbc
          | cons z zs =>
              simp only [strLeCharList] at hab hbc ⊢
              by_cases h1 : x.toNat < y.toNat <;> by_cases h2 : y.toNat < z.toNat
              · simp [show x.toNat < z.toNat by omega]
              · simp only [if_neg h2] at hbc
                by_cases h3 : y.toNat = z.toNat
                · simp [show x.toNat < z.toNat by omega]
                · simp [h3] at hbc
              · simp only [if_neg h1] at hab
                by_cases h1' : x.toNat = y.toNat
                · simp [show x.toNat < z.toNat by omega]
                · simp [h1'] at hab
              · simp only [if_neg h1] at hab
                simp only [if_neg h2] at hbc
                by_cases h1' : x.toNat = y.toNat
                · simp only [if_pos h1'] at hab
                  by_cases h3 : y.toNat = z.toNat
                  · simp only [if_pos h3] at hbc
                    have hxz : ¬ x.toNat < z.toNat := by omega
                    have hxz' : x.toNat = z.toNat := by omega
                    simp [hxz, hxz', ih ys zs hab hbc]
                  · simp [h3] at hbc
                · simp [h1'] at hab

theorem strLeCharList_antisymm :
    ∀ a b, strLeCharList a b = true → strLeCharList b a = true → a = b := by
  intro a
  induction a with
  | nil =>
      intro b _ hba
      cases b with
      | nil => rfl
      | cons d ds => simp [strLeCharList] at hba
  | cons c cs ih =>
      intro b hab hba
      cases b with
      | nil => simp [strLeCharList] at hab
      | cons d ds =>
          simp only [strLeCharList] at hab hba
          by_cases h1 : c.toNat < d.toNat
          · have h2 : ¬ d.toNat < c.toNat := by omega
            have h3 : ¬ d.toNat = c.toNat := by omega
            simp [h2, h3] at hba
          · simp [h1] at hab
            by_cases h1' : c.toNat = d.toNat
            · simp [h1'] at hab
              have h2 : ¬ d.toNat < c.toNat := by omega
              simp [h2, h1'.symm] at hba
              have hval : c.val.toNat = d.val.toNat := h1'
              have hcd : c = d := Char.eq_of_val_eq (UInt32.toNat.inj hval)
              rw [hcd, ih ds hab hba]
            · simp [h1'] at hab

instance : IsTotal String strLeProp :=
  ⟨fun a b => strLeCharList_total a.data b.data⟩

instance : IsTrans String strLeProp :=
  ⟨fun a b c => strLeCharList_trans a.data b.data c.data⟩

theorem strLe_antisymm {a b : String} (h1 : strLeProp a b) (h2 : strLeProp b a) : a = b := by
  cases a with
  | mk da =>
      cases b with
      | mk db =>
          have := strLeCharList_antisymm da db h1 h2
          simp [this]

/-- Adjacent-duplicate removal, the model of Rust's `Vec::dedup`. -/
def dedupAdj {α : Type} [DecidableEq α] : List α → List α
  | [] => []
  | [a] => [a]
  | a :: b :: t => if a = b then dedupAdj (b :: t) else a :: dedupAdj (b :: t)

theorem mem_dedupAdj {α : Type} [DecidableEq α] : ∀ (l : List α) (x : α), x ∈ dedupAdj l ↔ x ∈ l := by
  intro l
  induction l with
  | nil => intro x; simp [dedupAdj]
  | cons a t ih =>
      intro x
      cases t with
      | nil => simp [dedupAdj]
      | cons b t' =>
          by_cases h : a = b
          · simp only [dedupAdj, if_pos h]
            rw [ih x]
            subst h
            simp
          · simp only [dedupAdj, if_neg h, List.mem_cons]
            rw [ih x]
            simp

theorem sorted_dedupAdj_nodup {α : Type} [DecidableEq α] (r : α → α → Prop)
    (hanti : ∀ x y, r x y → r y x → x = y) :
    ∀ l : List α, l.Sorted r → (dedupAdj l).Nodup := by
  intro l
  induction l with
  | nil => intro _; simp [dedupAdj]
  | cons a t ih =>
      intro hs
      cases t with
      | nil => simp [dedupAdj]
      | cons b t' =>
          have hs' : (b :: t').Sorted r := hs.of_cons
          by_cases h : a = b
          · simpa only [dedupAdj, if_pos h] using ih hs'
          · simp only [dedupAdj, if_neg h, List.nodup_cons]
            refine ⟨?_, ih hs'⟩
            intro hmem
            rw [mem_dedupAdj] at hmem
            have hab : r a b := (List.sorted_cons.mp hs).1 b (by simp)
            rcases List.mem_cons.mp hmem with rfl | hmem'
            · exact h rfl
            · have hba : r b a := (List.sorted_cons.mp hs').1 a hmem'
              exact h (hanti a b hab hba)

theorem sorted_dedupAdj {α : Type} [DecidableEq α] (r : α → α → Prop) :
    ∀ l : List α, l.Sorted r → (dedupAdj l).Sorted r := by
  have hsub : ∀ l : List α, (dedupAdj l).Sublist l := by
    intro l
    induction l with
    | nil => simp [dedupAdj]
    | cons a t ih =>
        cases t with
        | nil => simp [dedupAdj]
        | cons b t' =>
            by_cases h : a = b
            · simp only [dedupAdj, if_pos h]
              exact ih.cons _
            · simp only [dedupAdj, if_neg h]
              exact ih.cons₂ _
  intro l hs
  exact hs.sublist (hsub l)

/-- Errors surfaced by the Transform (spec §7 / `crate::error`). -/
inductive Err where
  | attributeLimitReached
  | documentLimitReached
  | abortedIndexation
  | serdeJson
  | fieldIdMapMissingEntry
  | databaseMissingEntry
  | assertionFailure
  | panicEmptyDocument
deriving DecidableEq, Repr

/-- The operation byte prefixed to every sorter entry
(`transform.rs`, `enum Operation`). -/
inductive Operation where
  | addition
  | deletion
deriving DecidableEq, Repr

/-- The two indexing methods selecting the merge reducer
(`IndexDocumentsMethod`). -/
inductive IndexDocumentsMethod where
  | replaceDocuments
  | updateDocuments
deriving DecidableEq, Repr

/-- A canonical obkv record: `(field id, value)` pairs, sorted strictly
ascending by field id in well-formed records. -/
abbrev Record := List (Nat × JVal)

/-- A delete+add record: per field, an optional deletion-side value and an
optional addition-side value. -/
abbrev DelAddRecord := List (Nat × (Option JVal × Option JVal))

instance : DecidableEq Record := inferInstance

/-- Modelled from the spec: `into_del_add_obkv` (in `crate::update::del_add`,
not under src/) lifts a flat record into a delete+add record; each field's
deletion-side slot is present iff `keepDel`, likewise the addition side for
`keepAdd`, and both sides carry the same bytes (spec §4.A `wrap_del_add`). -/
def into_del_add_obkv (r : Record) (keepDel keepAdd : Bool) : DelAddRecord :=
  r.map (fun p => (p.1, ((if keepDel then some p.2 else none),
                         (if keepAdd then some p.2 else none))))

/-- Position of a name in a list of names, the id lookup of the field-id map. -/
def indexOfName (names : List String) (n : String) : Option Nat :=
  match names with
  | [] => none
  | x :: xs => if x == n then some 0 else (indexOfName xs n).map (fun i => i + 1)

/-- Modelled from the spec: milli's `FieldsIdsMap` (not under src/): an
append-only bidirectional dictionary name ↔ field id with dense id
allocation; inserting a new name fails once the 16-bit field-id space is
exhausted (spec §3 "Field identifier", §4.F).  A field id is the position
of its name in `names`. -/
structure FieldsIdsMap where
  names : List String
deriving DecidableEq, Repr

/-- Field id of a name, if present. -/
def FieldsIdsMap.id (m : FieldsIdsMap) (n : String) : Option Nat :=
  indexOfName m.names n

/-- Name of a field id, if present. -/
def FieldsIdsMap.name (m : FieldsIdsMap) (i : Nat) : Option String :=
  m.names[i]?

/-- Number of fields in the map. -/
def FieldsIdsMap.size (m : FieldsIdsMap) : Nat := m.names.length

/-- Modelled from the spec: `FieldsIdsMap::insert` returns the existing id
for a known name, densely allocates the next id for a new name, and
returns `none` (mapped to `AttributeLimitReached` by callers) once the
16-bit id space is exhausted. -/
def FieldsIdsMap.insert (m : FieldsIdsMap) (n : String) : Option (FieldsIdsMap × Nat) :=
  match indexOfName m.names n with
  | some i => some (m, i)
  | none =>
      if m.names.length ≤ 65535 then some (⟨m.names ++ [n]⟩, m.names.length) else none

/-- Modelled from the spec: `json_depth_checker::should_flatten_from_unchecked_slice`
(not under src/).  A value is nested — needs flattening — iff it is an
object, or an array needing expansion, i.e. one containing an object
(spec §4.B: the flattener expands nested objects and arrays of objects). -/
def shouldFlatten : JVal → Bool
  | .obj _ => true
  | .arr xs => xs.any JVal.isObjB
  | _ => false

mutual

/-- Modelled from the spec: the recursive core of `flatten_serde_json::flatten`
(not under src/).  A nested object at dotted path `p` is replaced by
`(p.k, v)` pairs; in an array, object elements are expanded under `p` and
the remaining elements are kept as an array at `p`; scalars are kept
(spec §4.B steps 3). -/
def flattenPairs (p : String) : JVal → List (String × JVal)
  | .obj kvs => flattenObjList p kvs
  | .arr xs =>
      let ys := xs.filter (fun x => !x.isObjB)
      flattenArrObjs p xs ++ (if ys.isEmpty && !xs.isEmpty then [] else [(p, .arr ys)])
  | v => [(p, v)]

/-- Flattening of the fields of an object under parent path `p`. -/
def flattenObjList (p : String) : List (String × JVal) → List (String × JVal)
  | [] => []
  | (k, v) :: rest => flattenPairs (p ++ "." ++ k) v ++ flattenObjList p rest

/-- Flattening of the object elements of an array at path `p`. -/
def flattenArrObjs (p : String) : List JVal → List (String × JVal)
  | [] => []
  | x :: rest => (if x.isObjB then flattenPairs p x else []) ++ flattenArrObjs p rest

end

/-- Merging of a later value into an earlier value for the same flattened
key ("array of objects with merged sibling keys", spec §4.B). -/
def combineSibling (old new : JVal) : JVal :=
  match old with
  | .arr xs => .arr (xs ++ [new])
  | v => .arr [v, new]

/-- Grouping of flattened pairs by key, merging duplicate keys into arrays;
the model of `flatten_serde_json`'s accumulation into a JSON map. -/
def groupMergePairs (ps : List (String × JVal)) : List (String × JVal) :=
  ps.foldl (fun acc p =>
    if (alookup acc p.1).isSome then
      acc.map (fun q => if q.1 == p.1 then (q.1, combineSibling q.2 p.2) else q)
    else acc ++ [p]) []

/-- Modelled from the spec: `flatten_serde_json::flatten` on a whole
string-keyed document (not under src/). -/
def flatten_serde_json (doc : List (String × JVal)) : List (String × JVal) :=
  groupMergePairs ((doc.map (fun p => flattenPairs p.1 p.2)).flatten)

/-- The collision-merge match of `Transform::create_obkv_from_key_value`
(transform.rs lines 569-579): two arrays concatenate, an array plus a
non-array pushes the non-array onto the array (either order), two
non-arrays form a two-element array. -/
def mergeValues : JVal → JVal → JVal
  | .arr l, .arr r => .arr (l ++ r)
  | .arr a, v => .arr (a ++ [v])
  | v, .arr a => .arr (a ++ [v])
  | l, r => .arr [l, r]

/-- The `windows(2)`/`skip_next_value` emission loop of
`create_obkv_from_key_value`: two consecutive entries with equal field ids
are merged into one entry, then the window after the merged pair is
skipped. -/
def emitMerged : List (Nat × JVal) → List (Nat × JVal)
  | [] => []
  | [p] => [p]
  | p :: q :: rest =>
      if p.1 = q.1 then (p.1, mergeValues p.2 q.2) :: emitMerged rest
      else p :: emitMerged (q :: rest)

/-- Boolean check that a key-value list is sorted by non-decreasing field id,
the condition of the `debug_assert!` in `create_obkv_from_key_value`. -/
def sortedByKeyB : List (Nat × JVal) → Bool
  | [] => true
  | [_] => true
  | p :: q :: rest => decide (p.1 ≤ q.1) && sortedByKeyB (q :: rest)

/-- Strict ascending-field-id check: the write-side invariant of the record
codec (spec §4.A). -/
def strictlySortedByKeyB : List (Nat × JVal) → Bool
  | [] => true
  | [_] => true
  | p :: q :: rest => decide (p.1 < q.1) && strictlySortedByKeyB (q :: rest)

/-- Modelled from the spec: the obkv `KvWriter` receiving the sequence of
`writer.insert` calls (the obkv crate is not under src/); per spec §4.A the
record codec fails if the written pairs are not strictly sorted by field
id. -/
def kvWriterWrite (l : List (Nat × JVal)) : Except Err Record :=
  if strictlySortedByKeyB l = true then .ok l else .error .assertionFailure

/-- `Transform::create_obkv_from_key_value` (transform.rs lines 534-595):
asserts the input is sorted by non-decreasing field id, panics on an empty
input (`key_value.last().unwrap()`), and writes the collision-merged
entries through the record codec, which fails when the emitted pairs are
not strictly sorted by field id (spec §4.A). -/
def create_obkv_from_key_value (keyValue : List (Nat × JVal)) : Except Err Record :=
  if sortedByKeyB keyValue = false then .error .assertionFailure
  else
    match keyValue with
    | [] => .error .panicEmptyDocument
    | _ => kvWriterWrite (emitMerged keyValue)

/-- Ordering of `(field id, value)` pairs by field id, used to model the
`sort_unstable_by_key` calls. -/
def recPairLe (a b : Nat × JVal) : Prop := a.1 ≤ b.1

instance : DecidableRel recPairLe := fun a b => Nat.decLe a.1 b.1

instance : IsTotal (Nat × JVal) recPairLe := ⟨fun a b => Nat.le_total a.1 b.1⟩

instance : IsTrans (Nat × JVal) recPairLe := ⟨fun _ _ _ h1 h2 => Nat.le_trans h1 h2⟩

/-- Name recovery for the nested fields handed to the flattener
(`self.fields_ids_map.name(key).ok_or(FieldIdMapMissingEntry)`). -/
def recoverNames (fim : FieldsIdsMap) : Record → Except Err (List (String × JVal))
  | [] => .ok []
  | p :: rest =>
      match fim.name p.1 with
      | some n => (recoverNames fim rest).map (fun tl => (n, p.2) :: tl)
      | none => .error .fieldIdMapMissingEntry

/-- Assignment of index-global field ids to the flattened entries
(the `fields_ids_map.insert` loop of `flatten_from_fields_ids_map`). -/
def assignFieldIds (fim : FieldsIdsMap) (acc : Record) :
    List (String × JVal) → Except Err (FieldsIdsMap × Record)
  | [] => .ok (fim, acc)
  | p :: rest =>
      match fim.insert p.1 with
      | some (m, fid) => assignFieldIds m (acc ++ [(fid, p.2)]) rest
      | none => .error .attributeLimitReached

/-- `Transform::flatten_from_fields_ids_map` (transform.rs lines 480-531):
returns `none` when no value needs flattening; otherwise keeps the raw
scalar entries, flattens the nested fields through the session field-id
map, assigns field ids to the flattened keys, sorts, and emits the
collision-merged record.  The source's `sort_unstable_by_key` is modelled
by a stable sort; on the only ties that occur (one scalar entry and one
flattened entry for the same field id) the relative order is the one the
source produces when the unstable sort preserves it, and the collision
merge of the claim C9 is insensitive to it up to element multiset. -/
def flatten_from_fields_ids_map (fim : FieldsIdsMap) (obkv : Record) :
    Except Err (FieldsIdsMap × Option Record) :=
  if obkv.all (fun p => !shouldFlatten p.2) then .ok (fim, none)
  else do
    let scalars := obkv.filter (fun p => !shouldFlatten p.2)
    let nested := obkv.filter (fun p => shouldFlatten p.2)
    let doc ← recoverNames fim nested
    let flattened := flatten_serde_json doc
    let r ← assignFieldIds fim [] flattened
    let keyValue := List.insertionSort recPairLe (scalars ++ r.2)
    let buffer ← create_obkv_from_key_value keyValue
    .ok (r.1, some buffer)

/-- Modelled from the spec: `AvailableDocumentsIds` (not under src/):
a lazy ascending iterator over the complement of (live ∪ soft-deleted)
internal ids within the 32-bit space; exhaustion yields
`DocumentLimitReached` at the caller (spec §4.E). -/
structure AvailableDocumentsIds where
  unavailable : List Nat
  cursor : Nat
deriving DecidableEq, Repr

/-- Next free internal id: the smallest id at or above the cursor that is
not unavailable, if it fits in 32 bits.  The bounded search range always
suffices because at most `unavailable.length` candidates can be skipped. -/
def AvailableDocumentsIds.next (a : AvailableDocumentsIds) :
    Option (Nat × AvailableDocumentsIds) :=
  match ((List.range (a.unavailable.length + 1)).map (fun i => a.cursor + i)).find?
      (fun i => !a.unavailable.contains i) with
  | some i => if i < 4294967296 then some (i, ⟨a.unavailable, i + 1⟩) else none
  | none => none

/-- The persistent index state visible to the Transform through the heed
transaction: the external-id map, the document store, the live and
soft-deleted id bitmaps, the field-id map, the per-field document
frequencies, and the primary-key name (spec §6). -/
structure Database where
  externalDocumentsIds : List (String × Nat)
  documents : List (Nat × Record)
  documentsIds : List Nat
  softDeletedDocumentsIds : List Nat
  fieldsIdsMap : FieldsIdsMap
  fieldDistribution : List (String × Nat)
  primaryKey : Option String

/-- The session state of `struct Transform`: the session field-id map, the
id allocator, the two sorter insertion logs (key, operation byte,
delete+add payload), the replaced-id and new-id bitmaps, the external-id
builder, and the documents count. -/
structure Transform where
  fieldsIdsMap : FieldsIdsMap
  availableDocumentsIds : AvailableDocumentsIds
  originalSorter : List (Nat × (Operation × DelAddRecord))
  flattenedSorter : List (Nat × (Operation × DelAddRecord))
  replacedDocumentsIds : List Nat
  newDocumentsIds : List Nat
  newExternalDocumentsIdsBuilder : List (String × Nat)
  documentsCount : Nat

instance : Inhabited Transform :=
  ⟨⟨⟨[]⟩, ⟨[], 0⟩, [], [], [], [], [], 0⟩⟩

/-- `Transform::new` (transform.rs lines 101-154): empty session state; the
id allocator excludes live and soft-deleted ids. -/
def Transform.new (db : Database) : Transform where
  fieldsIdsMap := db.fieldsIdsMap
  availableDocumentsIds := ⟨db.documentsIds ++ db.softDeletedDocumentsIds, 0⟩
  originalSorter := []
  flattenedSorter := []
  replacedDocumentsIds := []
  newDocumentsIds := []
  newExternalDocumentsIdsBuilder := []
  documentsCount := 0

/-- Ordering of `(local field id, name)` pairs by local id, the
`sorted_by_key(|(&id, _)| id)` of `create_fields_mapping`. -/
def fidPairLe (a b : Nat × String) : Prop := a.1 ≤ b.1

instance : DecidableRel fidPairLe := fun a b => Nat.decLe a.1 b.1

instance : IsTotal (Nat × String) fidPairLe := ⟨fun a b => Nat.le_total a.1 b.1⟩

instance : IsTrans (Nat × String) fidPairLe := ⟨fun _ _ _ h1 h2 => Nat.le_trans h1 h2⟩

/-- The fold step of `create_fields_mapping`: an existing name reuses its
index-global id, a new name is inserted (possibly failing with
`AttributeLimitReached`). -/
def cfmAux (m : FieldsIdsMap) (mp : List (Nat × Nat)) :
    List (Nat × String) → Except Err (FieldsIdsMap × List (Nat × Nat))
  | [] => .ok (m, mp)
  | (f, n) :: rest =>
      match m.id n with
      | some i => cfmAux m (mp ++ [(f, i)]) rest
      | none =>
          match m.insert n with
          | some (m', i) => cfmAux m' (mp ++ [(f, i)]) rest
          | none => .error .attributeLimitReached

/-- `create_fields_mapping` (transform.rs lines 81-98): iterates the batch
dictionary in ascending batch-local-id order and builds the batch-local →
index-global translation, enlarging the index field-id map as needed. -/
def create_fields_mapping (m : FieldsIdsMap) (batch : List (Nat × String)) :
    Except Err (FieldsIdsMap × List (Nat × Nat)) :=
  cfmAux m [] (List.insertionSort fidPairLe batch)

/-- One record of an enriched documents batch: the external id, whether it
was auto-generated by enrichment, and the field values keyed by
batch-local field ids. -/
structure EnrichedDocument where
  externalId : String
  idIsGenerated : Bool
  fields : List (Nat × JVal)

/-- Record assembly in the `read_documents` loop (transform.rs lines
197-221): a generated external id is pushed as the primary-key field
first, the document fields are remapped to index-global ids, and the
result is sorted by field id. -/
def assembleRecord (mapping : List (Nat × Nat)) (primaryKeyId : Nat)
    (d : EnrichedDocument) : Except Err Record := do
  let mapped ← d.fields.mapM (fun p =>
    match alookup mapping p.1 with
    | some mk => Except.ok (mk, p.2)
    | none => Except.error Err.fieldIdMapMissingEntry)
  let buffer := (if d.idIsGenerated then [(primaryKeyId, JVal.str d.externalId)] else []) ++ mapped
  .ok (List.insertionSort recPairLe buffer)

/-- The `!skip_insertion` tail of the `read_documents` loop (transform.rs
lines 302-334): record the id as new, push the addition-only delete+add
record into the original sorter, and mirror it through the flattener into
the flattened sorter; the per-loop `documents_count` increment is charged
here. -/
def insertNewRecord (st : Transform) (docid : Nat) (record : Record) :
    Except Err Transform := do
  let st1 := { st with
    newDocumentsIds := bmInsert docid st.newDocumentsIds,
    originalSorter := st.originalSorter ++
      [(docid, (Operation.addition, into_del_add_obkv record false true))] }
  let r ← flatten_from_fields_ids_map st1.fieldsIdsMap record
  let payload := match r.2 with
    | some flattened => into_del_add_obkv flattened false true
    | none => into_del_add_obkv record false true
  .ok { st1 with
    fieldsIdsMap := r.1,
    flattenedSorter := st1.flattenedSorter ++ [(docid, (Operation.addition, payload))],
    documentsCount := st1.documentsCount + 1 }

/-- One iteration of the `read_documents` loop (transform.rs lines
181-343): assemble the canonical record, resolve the external id to an
internal id (session builder, then persisted map, then the allocator),
apply the exact-equality short-circuit when a first-time replacement is
byte-identical to the persisted base record, otherwise push the base
delete+add record (replacement case) and the new record. -/
def readOneDocument (db : Database) (mode : IndexDocumentsMethod)
    (mapping : List (Nat × Nat)) (primaryKeyId : Nat) (st : Transform)
    (d : EnrichedDocument) : Except Err Transform := do
  let record ← assembleRecord mapping primaryKeyId d
  match alookup st.newExternalDocumentsIdsBuilder d.externalId with
  | some docid => insertNewRecord st docid record
  | none =>
    match alookup db.externalDocumentsIds d.externalId with
    | some docid =>
        let isNew := !(st.replacedDocumentsIds.contains docid)
        let st1 := { st with
          replacedDocumentsIds := bmInsert docid st.replacedDocumentsIds,
          newExternalDocumentsIdsBuilder :=
            st.newExternalDocumentsIdsBuilder ++ [(d.externalId, docid)] }
        if isNew then
          match alookup db.documents docid with
          | none => .error .databaseMissingEntry
          | some base =>
            if base = record then
              .ok { st1 with
                replacedDocumentsIds := bmRemove docid st1.replacedDocumentsIds,
                newExternalDocumentsIdsBuilder :=
                  aremove st1.newExternalDocumentsIdsBuilder d.externalId,
                documentsCount := st1.documentsCount + 1 }
            else do
              let keepOriginal := mode == IndexDocumentsMethod.updateDocuments
              let st2 := { st1 with
                originalSorter := st1.originalSorter ++
                  [(docid, (Operation.addition, into_del_add_obkv base true keepOriginal))] }
              let r ← flatten_from_fields_ids_map st2.fieldsIdsMap base
              let payload := match r.2 with
                | some flattened => into_del_add_obkv flattened true keepOriginal
                | none => into_del_add_obkv base true keepOriginal
              let st3 := { st2 with
                fieldsIdsMap := r.1,
                flattenedSorter := st2.flattenedSorter ++
                  [(docid, (Operation.addition, payload))] }
              insertNewRecord st3 docid record
        else
          insertNewRecord st1 docid record
    | none =>
        match st.availableDocumentsIds.next with
        | none => .error .documentLimitReached
        | some (docid, avail) =>
            let st1 := { st with
              availableDocumentsIds := avail,
              newExternalDocumentsIdsBuilder :=
                st.newExternalDocumentsIdsBuilder ++ [(d.externalId, docid)] }
            insertNewRecord st1 docid record

/-- The per-document fold of `read_documents`. -/
def readLoop (db : Database) (mode : IndexDocumentsMethod) (mapping : List (Nat × Nat))
    (primaryKeyId : Nat) (st : Transform) : List EnrichedDocument → Except Err Transform
  | [] => .ok st
  | d :: rest => do
      let st1 ← readOneDocument db mode mapping primaryKeyId st d
      readLoop db mode mapping primaryKeyId st1 rest

/-- `Transform::read_documents` (transform.rs lines 156-355): builds the
field-id translation, registers the primary key, folds the per-document
loop over the batch, and persists the enlarged field-id map and the
primary-key name to the index.  Progress reporting and the abort signal
are omitted (the claims quantify over non-aborted runs). -/
def Transform.read_documents (db : Database) (mode : IndexDocumentsMethod)
    (st : Transform) (batchIndex : List (Nat × String)) (primaryKey : String)
    (docs : List EnrichedDocument) : Except Err (Database × Transform) := do
  let r ← create_fields_mapping st.fieldsIdsMap batchIndex
  match r.1.insert primaryKey with
  | none => .error .attributeLimitReached
  | some (fim2, primaryKeyId) => do
    let st1 := { st with fieldsIdsMap := fim2 }
    let st2 ← readLoop db mode r.2 primaryKeyId st1 docs
    .ok ({ db with fieldsIdsMap := st2.fieldsIdsMap, primaryKey := some primaryKey }, st2)

/-- The `Entry::Occupied` branch of the removal loop (transform.rs lines
389-413): a document added earlier in this session is tombstoned with a
`Deletion`-prefixed empty record in both sorters, dropped from the new-id
set and from the external-id builder; the replaced-id set is not touched. -/
def removeFromCurrentSession (st : Transform) (e : String) : Transform × Bool :=
  match alookup st.newExternalDocumentsIdsBuilder e with
  | some docid =>
      ({ st with
          originalSorter := st.originalSorter ++ [(docid, (Operation.deletion, []))],
          flattenedSorter := st.flattenedSorter ++ [(docid, (Operation.deletion, []))],
          newDocumentsIds := bmRemove docid st.newDocumentsIds,
          newExternalDocumentsIdsBuilder := aremove st.newExternalDocumentsIdsBuilder e },
        true)
  | none => (st, false)

/-- The persisted-document branch of the removal loop (transform.rs lines
415-467): a document present in the external-id map is marked replaced and
its base record is pushed, deletion side only, into both sorters. -/
def removeFromDatabase (db : Database) (st : Transform) (e : String) :
    Except Err (Transform × Bool) :=
  match alookup db.externalDocumentsIds e with
  | some docid => do
      let st1 := { st with replacedDocumentsIds := bmInsert docid st.replacedDocumentsIds }
      match alookup db.documents docid with
      | none => .error .databaseMissingEntry
      | some base => do
          let st2 := { st1 with
            originalSorter := st1.originalSorter ++
              [(docid, (Operation.deletion, into_del_add_obkv base true false))] }
          let r ← flatten_from_fields_ids_map st2.fieldsIdsMap base
          let payload := match r.2 with
            | some flattened => into_del_add_obkv flattened true false
            | none => into_del_add_obkv base true false
          .ok ({ st2 with
            fieldsIdsMap := r.1,
            flattenedSorter := st2.flattenedSorter ++
              [(docid, (Operation.deletion, payload))] }, true)
  | none => .ok (st, false)

/-- One iteration of the removal loop: both branches run in sequence and
the removal is counted iff at least one fired. -/
def removeOneDocument (db : Database) (st : Transform) (e : String) :
    Except Err (Transform × Bool) := do
  let r1 := removeFromCurrentSession st e
  let r2 ← removeFromDatabase db r1.1 e
  .ok (r2.1, r1.2 || r2.2)

/-- The per-id fold of `remove_documents`, carrying the deleted-documents
counter. -/
def removeLoop (db : Database) : Transform × Nat → List String → Except Err (Transform × Nat)
  | acc, [] => .ok acc
  | acc, e :: rest => do
      let r ← removeOneDocument db acc.1 e
      removeLoop db (r.1, if r.2 then acc.2 + 1 else acc.2) rest

/-- `Transform::remove_documents` (transform.rs lines 367-476): sorts and
deduplicates the input, then folds the per-id removal loop, counting the
ids for which at least one branch fired. -/
def Transform.remove_documents (db : Database) (st : Transform)
    (toRemove : List String) : Except Err (Transform × Nat) :=
  removeLoop db (st, 0) (dedupAdj (List.insertionSort strLeProp toRemove))

/-- Ordering of external-id builder entries by external id, used when the
builder is materialised into the ordered lookup. -/
def extPairLe (a b : String × Nat) : Prop := strLe a.1 b.1 = true

instance : DecidableRel extPairLe := fun a b => instDecidableEqBool (strLe a.1 b.1) true

instance : IsTotal (String × Nat) extPairLe :=
  ⟨fun a b => strLeCharList_total a.1.data b.1.data⟩

instance : IsTrans (String × Nat) extPairLe :=
  ⟨fun a b c => strLeCharList_trans a.1.data b.1.data c.1.data⟩

/-- Plain `≤` on naturals as a sort relation for sorter keys. -/
def natLeProp (a b : Nat) : Prop := a ≤ b

instance : DecidableRel natLeProp := fun a b => Nat.decLe a b

instance : IsTotal Nat natLeProp := ⟨Nat.le_total⟩

instance : IsTrans Nat natLeProp := ⟨fun _ _ _ h1 h2 => Nat.le_trans h1 h2⟩

/-- Union of the deletion sides for one field across an ordered list of
operation-prefixed delete+add records (the latest present value wins). -/
def delSideOf (vs : List (Operation × DelAddRecord)) (fid : Nat) : Option JVal :=
  vs.foldl (fun acc v =>
    match alookup v.2 fid with
    | some (some d, _) => some d
    | _ => acc) none

/-- The ascending list of all field ids mentioned by any input record. -/
def allFids (vs : List (Operation × DelAddRecord)) : List Nat :=
  dedupAdj (List.insertionSort natLeProp ((vs.map (fun v => v.2.map Prod.fst)).flatten))

/-- Modelled from the spec: the replace-mode reducer
`obkvs_keep_last_addition_merge_deletions` (in the helpers module, not
under src/): deletion sides are unioned across all inputs, the addition
side comes from the last input tagged `Addition`, and the output is tagged
`Addition` iff such an input exists (spec §4.D). -/
def obkvs_keep_last_addition_merge_deletions (vs : List (Operation × DelAddRecord)) :
    Operation × DelAddRecord :=
  let addRec := vs.foldl (fun acc v =>
    if v.1 == Operation.addition then some v.2 else acc) none
  let fields := allFids vs
  let merged := fields.filterMap (fun fid =>
    let del := delSideOf vs fid
    let add := match addRec with
      | some r =>
          match alookup r fid with
          | some (_, some a) => some a
          | _ => none
      | none => none
    match del, add with
    | none, none => none
    | _, _ => some (fid, (del, add)))
  ((if addRec.isSome then Operation.addition else Operation.deletion), merged)

/-- Modelled from the spec: the update-mode reducer
`obkvs_merge_additions_and_deletions` (not under src/): deletion sides are
unioned, the addition side of each field is the last non-empty addition
side seen for that field, and the output is tagged `Addition` iff some
addition side survives (spec §4.D). -/
def obkvs_merge_additions_and_deletions (vs : List (Operation × DelAddRecord)) :
    Operation × DelAddRecord :=
  let fields := allFids vs
  let merged := fields.filterMap (fun fid =>
    let del := delSideOf vs fid
    let add := vs.foldl (fun acc v =>
      match alookup v.2 fid with
      | some (_, some a) => some a
      | _ => acc) none
    match del, add with
    | none, none => none
    | _, _ => some (fid, (del, add)))
  ((if merged.any (fun p => p.2.2.isSome) then Operation.addition else Operation.deletion),
    merged)

/-- Per-key reduction during a sorter drain: a single value passes through
unchanged; two or more values are merged by the reducer selected by the
indexing method. -/
def reduceValues (mode : IndexDocumentsMethod) :
    List (Operation × DelAddRecord) → Operation × DelAddRecord
  | [v] => v
  | vs =>
      match mode with
      | .replaceDocuments => obkvs_keep_last_addition_merge_deletions vs
      | .updateDocuments => obkvs_merge_additions_and_deletions vs

/-- Drain of a sorter insertion log into the sorted merged stream of
`into_stream_merger_iter`: keys ascend, and the values inserted under one
key are reduced in insertion order. -/
def drainSorter (mode : IndexDocumentsMethod)
    (log : List (Nat × (Operation × DelAddRecord))) :
    List (Nat × (Operation × DelAddRecord)) :=
  let keys := dedupAdj (List.insertionSort natLeProp (log.map Prod.fst))
  keys.map (fun k =>
    (k, reduceValues mode ((log.filter (fun p => p.1 == k)).map Prod.snd)))

/-- Decrement of a field-distribution counter with erasure at zero
(`remove_deleted_documents_from_field_distribution` inner loop). -/
def fdDecrement (fd : List (String × Nat)) (nm : String) : Except Err (List (String × Nat)) :=
  match alookup fd nm with
  | none => .error .fieldIdMapMissingEntry
  | some c =>
      if c - 1 = 0 then .ok (aremove fd nm)
      else .ok (fd.map (fun q => if q.1 == nm then (q.1, c - 1) else q))

/-- Increment of a field-distribution counter, inserting at zero
(`*field_distribution.entry(name).or_insert(0) += 1`). -/
def fdIncrement (fd : List (String × Nat)) (nm : String) : List (String × Nat) :=
  match alookup fd nm with
  | some c => fd.map (fun q => if q.1 == nm then (q.1, c + 1) else q)
  | none => fd ++ [(nm, 1)]

/-- `Transform::remove_deleted_documents_from_field_distribution`
(transform.rs lines 597-628): for every id in the replaced-id set, fetch
its persisted record and decrement the distribution entry of each of its
field names, erasing entries that reach zero. -/
def remove_deleted_documents_from_field_distribution (db : Database) (st : Transform)
    (fd : List (String × Nat)) : Except Err (List (String × Nat)) :=
  st.replacedDocumentsIds.foldlM (fun fd docid => do
    match alookup db.documents docid with
    | none => Except.error Err.databaseMissingEntry
    | some obkv =>
        obkv.foldlM (fun fd p =>
          match st.fieldsIdsMap.name p.1 with
          | none => Except.error Err.fieldIdMapMissingEntry
          | some nm => fdDecrement fd nm) fd) fd

/-- The artifacts returned by output assembly (`struct TransformOutput`).
The two scratch files are the drained streams with the operation byte
stripped; the external-id lookup is the builder sorted by external id. -/
structure TransformOutput where
  primaryKey : String
  fieldsIdsMap : FieldsIdsMap
  fieldDistribution : List (String × Nat)
  newExternalDocumentsIds : List (String × Nat)
  newDocumentsIds : List Nat
  replacedDocumentsIds : List Nat
  documentsCount : Nat
  originalDocuments : List (Nat × DelAddRecord)
  flattenedDocuments : List (Nat × DelAddRecord)

instance : Inhabited TransformOutput :=
  ⟨⟨"", ⟨[]⟩, [], [], [], [], 0, [], []⟩⟩

/-- `Transform::output_from_sorter` (transform.rs lines 633-743): read the
primary key, subtract the replaced documents from the persisted field
distribution, drain the original sorter while stripping the operation byte
and incrementing the distribution entry of every field id carried by each
drained delete+add record, drain the flattened sorter without frequency
updates, and materialise the sorted external-id lookup. -/
def Transform.output_from_sorter (db : Database) (mode : IndexDocumentsMethod)
    (st : Transform) : Except Err TransformOutput := do
  match db.primaryKey with
  | none => .error .databaseMissingEntry
  | some pk => do
      let fd1 ← remove_deleted_documents_from_field_distribution db st db.fieldDistribution
      let drained := drainSorter mode st.originalSorter
      let fd2 ← drained.foldlM (fun fd entry =>
        entry.2.2.foldlM (fun fd p =>
          match st.fieldsIdsMap.name p.1 with
          | none => Except.error Err.fieldIdMapMissingEntry
          | some nm => Except.ok (fdIncrement fd nm)) fd) fd1
      let originalDocuments := drained.map (fun e => (e.1, e.2.2))
      let flattenedDocuments := (drainSorter mode st.flattenedSorter).map (fun e => (e.1, e.2.2))
      let newExternal := List.insertionSort extPairLe st.newExternalDocumentsIdsBuilder
      .ok { primaryKey := pk,
            fieldsIdsMap := st.fieldsIdsMap,
            fieldDistribution := fd2,
            newExternalDocumentsIds := newExternal,
            newDocumentsIds := st.newDocumentsIds,
            replacedDocumentsIds := st.replacedDocumentsIds,
            documentsCount := st.documentsCount,
            originalDocuments := originalDocuments,
            flattenedDocuments := flattenedDocuments }

/-- Insertion sort of flattened entries by a natural-number key, the model
of the `sort_unstable_by_key` on `new_fields_ids_map.id(key).unwrap_or(MAX)`
in the re-indexing path. -/
def sortByNatKey {α : Type} (key : α → Nat) : List α → List α
  | [] => []
  | x :: xs => insertByNatKey key x (sortByNatKey key xs)
where insertByNatKey (key : α → Nat) (x : α) : List α → List α
  | [] => [x]
  | y :: ys => if key x ≤ key y then x :: y :: ys else y :: insertByNatKey key x ys

/-- One document of the re-indexing walk: rebuild the record in the order
of the new field-id map, emit it as a pure addition, and re-flatten it
enlarging the new field-id map as needed. -/
def reindexOneDocument (db : Database) (oldFieldsIdsMap : FieldsIdsMap)
    (acc : List (Nat × DelAddRecord) × List (Nat × DelAddRecord) × FieldsIdsMap)
    (docid : Nat) :
    Except Err (List (Nat × DelAddRecord) × List (Nat × DelAddRecord) × FieldsIdsMap) := do
  match alookup db.documents docid with
  | none => Except.error Err.databaseMissingEntry
  | some obkv => do
      let nfim := acc.2.2
      let buffer := nfim.names.enum.filterMap (fun p =>
        match oldFieldsIdsMap.id p.2 with
        | some oid =>
            match alookup obkv oid with
            | some v => some (p.1, v)
            | none => none
        | none => none)
      let orig := acc.1 ++ [(docid, into_del_add_obkv buffer false true)]
      let doc ← recoverNames nfim buffer
      let flattened := flatten_serde_json doc
      let flattened := sortByNatKey (fun p => (nfim.id p.1).getD 65535) flattened
      let r2 ← assignFieldIds nfim [] flattened
      let flat := acc.2.1 ++ [(docid, into_del_add_obkv r2.2 false true)]
      Except.ok (orig, (flat, r2.1))

/-- The walk over all live documents of the re-indexing path. -/
def reindexWalk (db : Database) (oldFieldsIdsMap : FieldsIdsMap)
    (acc : List (Nat × DelAddRecord) × List (Nat × DelAddRecord) × FieldsIdsMap) :
    List Nat → Except Err (List (Nat × DelAddRecord) × List (Nat × DelAddRecord) × FieldsIdsMap)
  | [] => .ok acc
  | docid :: rest => do
      let acc1 ← reindexOneDocument db oldFieldsIdsMap acc docid
      reindexWalk db oldFieldsIdsMap acc1 rest

/-- `Transform::prepare_for_documents_reindexing` (transform.rs lines
749-872): walk every live document, rebuild its record in the order of the
new field-id map, emit it as a pure addition, re-flatten it through
`flatten_serde_json` (enlarging the new field-id map as needed), and return
the outputs; the replaced-id set and external-id lookup are returned empty
while the new-id set is the persisted live-id bitmap and the field
distribution is passed through unchanged. -/
def Transform.prepare_for_documents_reindexing (db : Database)
    (oldFieldsIdsMap newFieldsIdsMap : FieldsIdsMap) : Except Err TransformOutput := do
  match db.primaryKey with
  | none => .error .databaseMissingEntry
  | some pk => do
      let docIds := db.documentsIds
      let r ← reindexWalk db oldFieldsIdsMap ([], ([], newFieldsIdsMap)) docIds
      .ok { primaryKey := pk,
            fieldsIdsMap := r.2.2,
            fieldDistribution := db.fieldDistribution,
            newExternalDocumentsIds := [],
            newDocumentsIds := docIds,
            replacedDocumentsIds := [],
            documentsCount := docIds.length,
            originalDocuments := r.1,
            flattenedDocuments := r.2.1 }

/-- One public operation on a Transform session: an `ingest_batch` call or
a `remove` call (spec §4.F; both may be interleaved freely). -/
inductive SessionOp where
  | ingest (batchIndex : List (Nat × String)) (primaryKey : String)
      (docs : List EnrichedDocument)
  | remove (externalIds : List String)

/-- Application of one session operation to the database and session
state; `remove` leaves the database untouched, `ingest` persists the
enlarged field-id map and the primary key. -/
def applySessionOp (mode : IndexDocumentsMethod) (db : Database) (st : Transform) :
    SessionOp → Except Err (Database × Transform)
  | .ingest batchIndex pk docs => Transform.read_documents db mode st batchIndex pk docs
  | .remove ids => (Transform.remove_documents db st ids).map (fun r => (db, r.1))

/-- A whole session: any interleaving of ingest and remove calls starting
from `Transform::new`. -/
def runSession (mode : IndexDocumentsMethod) :
    Database × Transform → List SessionOp → Except Err (Database × Transform)
  | p, [] => .ok p
  | (db, st), op :: rest => do
      let p ← applySessionOp mode db st op
      runSession mode p rest

theorem alookup_none_iff {α β : Type} [BEq α] [LawfulBEq α] (l : List (α × β)) (k : α) :
    alookup l k = none ↔ ∀ p ∈ l, p.1 ≠ k := by
  unfold alookup
  cases h : l.find? (fun p => p.1 == k) with
  | some p =>
      simp only [reduceCtorEq, false_iff, not_forall]
      refine ⟨p, List.mem_of_find?_eq_some h, ?_⟩
      have := List.find?_some h
      simpa using this
  | none =>
      simp only [true_iff]
      intro p hp
      have := List.find?_eq_none.mp h p hp
      simpa using this

theorem aremove_eq_self {α β : Type} [BEq α] [LawfulBEq α] {l : List (α × β)} {k : α}
    (h : alookup l k = none) : aremove l k = l := by
  apply List.filter_eq_self.mpr
  intro p hp
  have := (alookup_none_iff l k).mp h p hp
  simpa using this

theorem aremove_append_single {α β : Type} [BEq α] [LawfulBEq α] (l : List (α × β)) (k : α)
    (v : β) (h : alookup l k = none) : aremove (l ++ [(k, v)]) k = l := by
  unfold aremove
  rw [List.filter_append]
  have h1 : List.filter (fun p => !(p.1 == k)) [(k, v)] = [] := by simp
  rw [h1, List.append_nil]
  exact aremove_eq_self h

theorem mem_bmInsert {x d : Nat} : ∀ {s : List Nat}, x ∈ bmInsert d s → x = d ∨ x ∈ s := by
  intro s
  induction s with
  | nil => intro h; simp [bmInsert] at h; simp [h]
  | cons y ys ih =>
      intro h
      simp only [bmInsert] at h
      by_cases h1 : d < y
      · simp only [if_pos h1] at h
        rcases List.mem_cons.mp h with rfl | h2
        · left; rfl
        · right; exact h2
      · simp only [if_neg h1] at h
        by_cases h2 : d = y
        · simp only [if_pos h2] at h
          right; exact h
        · simp only [if_neg h2] at h
          rcases List.mem_cons.mp h with rfl | h3
          · right; simp
          · rcases ih h3 with h4 | h4
            · left; exact h4
            · right; simp [h4]

theorem mem_bmRemove {x d : Nat} {s : List Nat} (h : x ∈ bmRemove d s) : x ∈ s :=
  (List.mem_filter.mp h).1

theorem bmRemove_eq_self {d : Nat} {s : List Nat} (h : d ∉ s) : bmRemove d s = s := by
  apply List.filter_eq_self.mpr
  intro x hx
  simp only [bne_iff_ne, ne_eq, decide_eq_true_eq]
  intro hxd
  exact h (hxd ▸ hx)

theorem bmRemove_bmInsert {d : Nat} : ∀ {s : List Nat}, d ∉ s → bmRemove d (bmInsert d s) = s := by
  intro s
  induction s with
  | nil => intro _; simp [bmInsert, bmRemove]
  | cons y ys ih =>
      intro h
      have hdy : d ≠ y := by intro he; exact h (by simp [he])
      have hdys : d ∉ ys := fun hm => h (by simp [hm])
      simp only [bmInsert]
      by_cases h1 : d < y
      · simp only [if_pos h1, bmRemove, List.filter]
        simp only [bne_self_eq_false]
        exact bmRemove_eq_self h
      · simp only [if_neg h1, if_neg hdy]
        simp only [bmRemove, List.filter_cons]
        have hyd : (y != d) = true := by simpa using (Ne.symm hdy)
        rw [if_pos hyd]
        congr 1
        exact ih hdys

theorem alookup_mem_map_snd {α β : Type} [BEq α] [LawfulBEq α] {l : List (α × β)} {k : α}
    {v : β} (h : alookup l k = some v) : v ∈ l.map Prod.snd := by
  unfold alookup at h
  cases hf : l.find? (fun p => p.1 == k) with
  | none => rw [hf] at h; exact absurd h (by simp)
  | some p =>
      rw [hf] at h
      have hm := List.mem_of_find?_eq_some hf
      have : p.2 = v := by simpa using h
      subst this
      exact List.mem_map.mpr ⟨p, hm, rfl⟩

theorem alookup_cons {α β : Type} [BEq α] (p : α × β) (l : List (α × β)) (k : α) :
    alookup (p :: l) k = if p.1 == k then some p.2 else alookup l k := by
  unfold alookup
  simp only [List.find?]
  cases h : (p.1 == k) <;> simp [h]

theorem alookup_append_of_ne {α β : Type} [BEq α] [LawfulBEq α] (l : List (α × β))
    (k k' : α) (v : β) (h : k ≠ k') : alookup (l ++ [(k, v)]) k' = alookup l k' := by
  unfold alookup
  rw [List.find?_append]
  have hkk : (k == k') = false := by simp [h]
  have h1 : List.find? (fun p => p.1 == k') [(k, v)] = none := by
    simp [List.find?, hkk]
  rw [h1]
  simp

theorem alookup_aremove_of_ne {α β : Type} [BEq α] [LawfulBEq α] (l : List (α × β))
    (k k' : α) (h : k ≠ k') : alookup (aremove l k) k' = alookup l k' := by
  induction l with
  | nil => rfl
  | cons p rest ih =>
      unfold aremove at ih ⊢
      rw [List.filter_cons]
      by_cases hp : p.1 = k
      · rw [if_neg (by simp [hp])]
        rw [ih, alookup_cons, if_neg (by simp [hp, h])]
      · rw [if_pos (by simp [hp]), alookup_cons, alookup_cons]
        by_cases hk' : (p.1 == k') = true
        · simp [hk']
        · simp only [hk', if_neg, Bool.false_eq_true, if_false]
          exact ih

/-- C9: when two consecutive entries of the sorted key-value list carry the
same field id, `create_obkv_from_key_value` emits a single array-valued
entry merged by: two arrays concatenate left-then-right, an array plus a
non-array (in either order) appends the non-array to the array, and two
non-arrays form a two-element array; in the array-plus-scalar case the
multiset of elements of the produced array does not depend on the order of
the two colliding entries. -/
theorem claim_C9_collision_merge :
    (∀ l r, mergeValues (JVal.arr l) (JVal.arr r) = JVal.arr (l ++ r)) ∧
    (∀ xs v, v.isArrB = false →
      mergeValues (JVal.arr xs) v = JVal.arr (xs ++ [v]) ∧
      mergeValues v (JVal.arr xs) = JVal.arr (xs ++ [v])) ∧
    (∀ v w, v.isArrB = false → w.isArrB = false →
      mergeValues v w = JVal.arr [v, w]) ∧
    (∀ xs v, v.isArrB = false →
      ((fun j => match j with | JVal.arr ys => (ys : Multiset JVal) | y => {y})
          (mergeValues (JVal.arr xs) v)) =
        ((fun j => match j with | JVal.arr ys => (ys : Multiset JVal) | y => {y})
          (mergeValues v (JVal.arr xs)))) ∧
    (∀ f v1 v2 rest, emitMerged ((f, v1) :: (f, v2) :: rest) =
      (f, mergeValues v1 v2) :: emitMerged rest) := by
  refine ⟨fun l r => rfl, ?_, ?_, ?_, ?_⟩
  · intro xs v h
    cases v with
    | arr ys => simp [JVal.isArrB] at h
    | prim n => exact ⟨rfl, rfl⟩
    | str s => exact ⟨rfl, rfl⟩
    | obj kvs => exact ⟨rfl, rfl⟩
  · intro v w hv hw
    cases v with
    | arr a => exact absurd hv (by simp [JVal.isArrB])
    | prim a =>
        cases w with
        | arr b => exact absurd hw (by simp [JVal.isArrB])
        | prim b => rfl
        | str b => rfl
        | obj b => rfl
    | str a =>
        cases w with
        | arr b => exact absurd hw (by simp [JVal.isArrB])
        | prim b => rfl
        | str b => rfl
        | obj b => rfl
    | obj a =>
        cases w with
        | arr b => exact absurd hw (by simp [JVal.isArrB])
        | prim b => rfl
        | str b => rfl
        | obj b => rfl
  · intro xs v h
    cases v with
    | arr ys => simp [JVal.isArrB] at h
    | prim n => rfl
    | str s => rfl
    | obj kvs => rfl
  · intro f v1 v2 rest
    simp [emitMerged]

/-- C9 witness: the collision-merge rules evaluated at concrete values. -/
theorem claim_C9_collision_merge_witness :
    mergeValues (JVal.arr [JVal.prim 1]) (JVal.prim 2) =
      JVal.arr [JVal.prim 1, JVal.prim 2] ∧
    mergeValues (JVal.prim 2) (JVal.arr [JVal.prim 1]) =
      JVal.arr [JVal.prim 1, JVal.prim 2] ∧
    mergeValues (JVal.prim 1) (JVal.prim 2) = JVal.arr [JVal.prim 1, JVal.prim 2] :=
  ⟨(claim_C9_collision_merge.2.1 [JVal.prim 1] (JVal.prim 2) rfl).1,
   (claim_C9_collision_merge.2.1 [JVal.prim 1] (JVal.prim 2) rfl).2,
   claim_C9_collision_merge.2.2.1 (JVal.prim 1) (JVal.prim 2) rfl rfl⟩

theorem sortedByKeyB_tail {p : Nat × JVal} {l : List (Nat × JVal)}
    (h : sortedByKeyB (p :: l) = true) : sortedByKeyB l = true := by
  cases l with
  | nil => rfl
  | cons q rest =>
      simp only [sortedByKeyB, Bool.and_eq_true] at h
      exact h.2

theorem sortedByKeyB_head_le : ∀ {p : Nat × JVal} {l : List (Nat × JVal)},
    sortedByKeyB (p :: l) = true → ∀ x ∈ l, p.1 ≤ x.1 := by
  intro p l
  induction l generalizing p with
  | nil => intro _ x hx; exact absurd hx (List.not_mem_nil x)
  | cons q rest ih =>
      intro h x hx
      simp only [sortedByKeyB, Bool.and_eq_true, decide_eq_true_eq] at h
      rcases List.mem_cons.mp hx with hx | hx
      · rw [hx]; exact h.1
      · exact Nat.le_trans h.1 (ih h.2 x hx)

theorem strictlySortedByKeyB_cons_false (p : Nat × JVal) {l : List (Nat × JVal)}
    (h : strictlySortedByKeyB l = false) : strictlySortedByKeyB (p :: l) = false := by
  cases l with
  | nil => simp [strictlySortedByKeyB] at h
  | cons q rest => simp [strictlySortedByKeyB, h]

/-- The first emitted entry of the merge loop carries the first input
field id. -/
theorem emitMerged_head_key (p : Nat × JVal) (l : List (Nat × JVal)) :
    ∃ v t, emitMerged (p :: l) = (p.1, v) :: t := by
  cases l with
  | nil => exact ⟨p.2, [], rfl⟩
  | cons q rest =>
      by_cases h : p.1 = q.1
      · exact ⟨mergeValues p.2 q.2, emitMerged rest, by simp [emitMerged, if_pos h]⟩
      · exact ⟨p.2, emitMerged (q :: rest), by simp [emitMerged, if_neg h]⟩

theorem countP_cons_key (a : Nat × JVal) (l : List (Nat × JVal)) (f : Nat) :
    List.countP (fun x => x.1 == f) (a :: l) =
      List.countP (fun x => x.1 == f) l + (if a.1 = f then 1 else 0) := by
  by_cases h : a.1 = f
  · simp [List.countP_cons, h]
  · simp [List.countP_cons, h]

/-- When every field id occurs at most twice in the sorted input, the merge
loop emits a strictly sorted record (each duplicated pair collapses into a
single entry). -/
theorem emitMerged_strict : ∀ (kv : List (Nat × JVal)),
    sortedByKeyB kv = true →
    (∀ f ∈ kv.map Prod.fst, kv.countP (fun x => x.1 == f) ≤ 2) →
    strictlySortedByKeyB (emitMerged kv) = true
  | [], _, _ => rfl
  | [p], _, _ => rfl
  | p :: q :: rest, hs, hc => by
      have hs1 : sortedByKeyB (q :: rest) = true := sortedByKeyB_tail hs
      have hpq : p.1 ≤ q.1 := by
        simp only [sortedByKeyB, Bool.and_eq_true, decide_eq_true_eq] at hs
        exact hs.1
      by_cases h : p.1 = q.1
      · rw [show emitMerged (p :: q :: rest) = (p.1, mergeValues p.2 q.2) :: emitMerged rest by
          simp [emitMerged, if_pos h]]
        cases rest with
        | nil => rfl
        | cons r t =>
            obtain ⟨v, t', ht'⟩ := emitMerged_head_key r t
            have hqr_le : q.1 ≤ r.1 := by
              simp only [sortedByKeyB, Bool.and_eq_true, decide_eq_true_eq] at hs1
              exact hs1.1
            have hrq : q.1 ≠ r.1 := by
              intro hqr
              have hcnt := hc p.1 (by simp)
              rw [countP_cons_key, countP_cons_key,
                if_pos (show q.1 = p.1 from h.symm), if_pos (show p.1 = p.1 from rfl)] at hcnt
              have hpos : 0 < List.countP (fun x => x.1 == p.1) (r :: t) :=
                List.countP_pos_iff.mpr ⟨r, by simp, by rw [← hqr, ← h]; simp⟩
              omega
            have hrest : strictlySortedByKeyB (emitMerged (r :: t)) = true :=
              emitMerged_strict (r :: t) (sortedByKeyB_tail hs1) (fun f hf => by
                have hf' : f ∈ (p :: q :: r :: t).map Prod.fst := by
                  simp only [List.map_cons, List.mem_cons] at hf ⊢
                  tauto
                have h1 := hc f hf'
                rw [countP_cons_key, countP_cons_key] at h1
                split at h1 <;> split at h1 <;> omega)
            rw [ht'] at hrest ⊢
            simp only [strictlySortedByKeyB, Bool.and_eq_true, decide_eq_true_eq]
            exact ⟨by omega, hrest⟩
      · rw [show emitMerged (p :: q :: rest) = p :: emitMerged (q :: rest) by
          simp [emitMerged, if_neg h]]
        obtain ⟨v, t', ht'⟩ := emitMerged_head_key q rest
        have hrest : strictlySortedByKeyB (emitMerged (q :: rest)) = true :=
          emitMerged_strict (q :: rest) hs1 (fun f hf => by
            have hf' : f ∈ (p :: q :: rest).map Prod.fst := by
              simp only [List.map_cons, List.mem_cons] at hf ⊢
              tauto
            have h1 := hc f hf'
            rw [countP_cons_key] at h1
            split at h1 <;> omega)
        rw [ht'] at hrest ⊢
        simp only [strictlySortedByKeyB, Bool.and_eq_true, decide_eq_true_eq]
        exact ⟨Nat.lt_of_le_of_ne hpq h, hrest⟩
termination_by kv => kv.length

/-- When some field id occurs at least three times in the sorted input, the
merge loop emits two entries under that id, so the emitted list is not
strictly sorted. -/
theorem emitMerged_not_strict : ∀ (kv : List (Nat × JVal)) (f : Nat),
    sortedByKeyB kv = true → 3 ≤ kv.countP (fun x => x.1 == f) →
    strictlySortedByKeyB (emitMerged kv) = false
  | [], f, _, hc => by rw [List.countP_nil] at hc; omega
  | [p], f, _, hc => by
      rw [countP_cons_key, List.countP_nil] at hc
      split at hc <;> omega
  | p :: q :: rest, f, hs, hc => by
      have hs1 : sortedByKeyB (q :: rest) = true := sortedByKeyB_tail hs
      have hpq : p.1 ≤ q.1 := by
        simp only [sortedByKeyB, Bool.and_eq_true, decide_eq_true_eq] at hs
        exact hs.1
      by_cases h : p.1 = q.1
      · rw [show emitMerged (p :: q :: rest) = (p.1, mergeValues p.2 q.2) :: emitMerged rest by
          simp [emitMerged, if_pos h]]
        by_cases hf : p.1 = f
        · have hcr : 0 < rest.countP (fun x => x.1 == f) := by
            rw [countP_cons_key, countP_cons_key] at hc
            split at hc <;> omega
          obtain ⟨x, hx, hxf⟩ := List.countP_pos_iff.mp hcr
          have hxf' : x.1 = f := by simpa using hxf
          cases rest with
          | nil => exact absurd hx (List.not_mem_nil x)
          | cons r t =>
              have hqr_le : q.1 ≤ r.1 := by
                simp only [sortedByKeyB, Bool.and_eq_true, decide_eq_true_eq] at hs1
                exact hs1.1
              have hr_le_x : r.1 ≤ x.1 := by
                rcases List.mem_cons.mp hx with hx' | hx'
                · rw [hx']
                · exact sortedByKeyB_head_le (sortedByKeyB_tail hs1) x hx'
              have hrf : r.1 = f := by omega
              obtain ⟨v, t', ht'⟩ := emitMerged_head_key r t
              rw [ht']
              have hfalse : (decide (p.1 < r.1)) = false := by
                simp only [decide_eq_false_iff_not]
                omega
              simp only [strictlySortedByKeyB]
              rw [hfalse, Bool.false_and]
        · have hc3 : 3 ≤ rest.countP (fun x => x.1 == f) := by
            rw [countP_cons_key, countP_cons_key,
              if_neg hf, if_neg (show ¬(q.1 = f) by omega)] at hc
            omega
          exact strictlySortedByKeyB_cons_false _
            (emitMerged_not_strict rest f (sortedByKeyB_tail hs1) hc3)
      · rw [show emitMerged (p :: q :: rest) = p :: emitMerged (q :: rest) by
          simp [emitMerged, if_neg h]]
        by_cases hf : p.1 = f
        · exfalso
          have hzero : (q :: rest).countP (fun x => x.1 == f) = 0 := by
            rw [List.countP_eq_zero]
            intro x hx
            have hge : q.1 ≤ x.1 := by
              rcases List.mem_cons.mp hx with hx' | hx'
              · rw [hx']
              · exact sortedByKeyB_head_le hs1 x hx'
            have hlt : p.1 < q.1 := Nat.lt_of_le_of_ne hpq h
            simp only [beq_iff_eq]
            omega
          rw [countP_cons_key, hzero] at hc
          split at hc <;> omega
        · have hc3 : 3 ≤ (q :: rest).countP (fun x => x.1 == f) := by
            rw [countP_cons_key, if_neg hf] at hc
            omega
          exact strictlySortedByKeyB_cons_false _
            (emitMerged_not_strict (q :: rest) f hs1 hc3)
termination_by kv => kv.length

/-- C10: at most two entries of the key-value list may carry the same field
id: on a sorted nonempty input in which every field id occurs at most
twice, `create_obkv_from_key_value` produces the collision-merged record,
while on an input in which three entries share one field id it fails
instead of producing a record — the merge loop emits two entries under
that id and the record codec rejects the non-strictly-sorted write. -/
theorem claim_C10_three_colliders :
    (∀ kv : List (Nat × JVal), kv ≠ [] → sortedByKeyB kv = true →
      (∀ f ∈ kv.map Prod.fst, kv.countP (fun x => x.1 == f) ≤ 2) →
      create_obkv_from_key_value kv = .ok (emitMerged kv)) ∧
    (∀ (kv : List (Nat × JVal)) (f : Nat), sortedByKeyB kv = true →
      3 ≤ kv.countP (fun x => x.1 == f) →
      create_obkv_from_key_value kv = .error .assertionFailure) := by
  constructor
  · intro kv hne hs hc
    unfold create_obkv_from_key_value
    rw [if_neg (by simp [hs])]
    cases kv with
    | nil => exact absurd rfl hne
    | cons p l =>
        show kvWriterWrite (emitMerged (p :: l)) = .ok (emitMerged (p :: l))
        unfold kvWriterWrite
        rw [if_pos (emitMerged_strict (p :: l) hs hc)]
  · intro kv f hs hc
    unfold create_obkv_from_key_value
    rw [if_neg (by simp [hs])]
    cases kv with
    | nil => rw [List.countP_nil] at hc; omega
    | cons p l =>
        show kvWriterWrite (emitMerged (p :: l)) = .error .assertionFailure
        unfold kvWriterWrite
        rw [if_neg (by simp [emitMerged_not_strict (p :: l) f hs hc])]

/-- C10 witness: two colliders under field id 0 merge into one entry and the
routine succeeds; three colliders under field id 0 make it fail. -/
theorem claim_C10_three_colliders_witness :
    create_obkv_from_key_value [(0, JVal.prim 1), (0, JVal.prim 2), (1, JVal.prim 3)] =
      .ok [(0, JVal.arr [JVal.prim 1, JVal.prim 2]), (1, JVal.prim 3)] ∧
    create_obkv_from_key_value [(0, JVal.prim 1), (0, JVal.prim 2), (0, JVal.prim 3)] =
      .error .assertionFailure :=
  ⟨claim_C10_three_colliders.1 [(0, JVal.prim 1), (0, JVal.prim 2), (1, JVal.prim 3)]
      (by decide) (by decide) (by decide),
   claim_C10_three_colliders.2 [(0, JVal.prim 1), (0, JVal.prim 2), (0, JVal.prim 3)] 0
      (by decide) (by decide)⟩

/-- A one-field index field-id map used by the concrete examples. -/
def exFim : FieldsIdsMap := ⟨["f"]⟩

/-- A persisted index holding one live document: external id "a" at
internal id 0 with the single field "f" (field id 0, value 7). -/
def exDb1 : Database where
  externalDocumentsIds := [("a", 0)]
  documents := [(0, [(0, JVal.prim 7)])]
  documentsIds := [0]
  softDeletedDocumentsIds := []
  fieldsIdsMap := exFim
  fieldDistribution := [("f", 1)]
  primaryKey := some "id"

/-- One ingest call that re-adds external id "a" with a different value
for field "f". -/
def c1ops : List SessionOp :=
  [SessionOp.ingest [(0, "f")] "id" [⟨"a", false, [(0, JVal.prim 8)]⟩]]

/-- The session of `c1ops` run from a fresh Transform against `exDb1`. -/
def c1run : Except Err (Database × Transform) :=
  runSession IndexDocumentsMethod.replaceDocuments (exDb1, Transform.new exDb1) c1ops

/-- The `TransformOutput` of that session. -/
def c1result : Except Err TransformOutput :=
  c1run.bind (fun p => Transform.output_from_sorter p.1 IndexDocumentsMethod.replaceDocuments p.2)

/-- C1 counterexample: re-adding persisted external id "a" (internal id 0)
with different content puts internal id 0 into both `new_documents_ids`
and `replaced_documents_ids` of the returned `TransformOutput`, refuting
the claimed disjointness of the two sets. -/
theorem claim_C1_counterexample :
    (c1result.map (fun out =>
      out.newDocumentsIds.contains 0 && out.replacedDocumentsIds.contains 0)) = .ok true := rfl

/-- The session that removes the persisted external id "a". -/
def c2run : Except Err (Transform × Nat) :=
  Transform.remove_documents exDb1 (Transform.new exDb1) ["a"]

/-- The field distribution of the output assembled after that removal. -/
def c2result : Except Err (List (String × Nat)) :=
  c2run.bind (fun p =>
    (Transform.output_from_sorter exDb1 IndexDocumentsMethod.replaceDocuments p.1).map
      (fun out => out.fieldDistribution))

/-- C2: removing the only document holding field "f" and assembling the
output leaves the field distribution at `{f: 1}` instead of the empty map:
the only sorter entry is deletion-only (it carries no addition side), yet
the drain loop of `output_from_sorter` increments the distribution entry
of every field id of the merged delete+add record, cancelling the
decrement that `remove_deleted_documents_from_field_distribution` had
applied.  This contradicts the documented intent ("Add all the new
documents to the field distribution") and the claim. -/
theorem claim_C2_code_bug :
    c2result = .ok [("f", 1)] ∧
    (c2run.map (fun p => p.1.originalSorter)) =
      .ok [(0, (Operation.deletion, [(0, (some (JVal.prim 7), none))]))] := ⟨rfl, rfl⟩

/-- C3 counterexample: running the re-indexing path on an index holding one
live document returns a `TransformOutput` whose `new_documents_ids` is the
persisted live-id bitmap `{0}`, not the empty set the claim requires. -/
theorem claim_C3_counterexample :
    (Transform.prepare_for_documents_reindexing exDb1 exFim exFim).map
      (fun out => out.newDocumentsIds) = .ok [0] ∧ ([0] : List Nat) ≠ [] :=
  ⟨rfl, by decide⟩

/-- C3 amended: `prepare_for_documents_reindexing` returns an output whose
external-id lookup and replaced-id set are empty and whose field-frequency
table equals the persisted table unchanged, but whose new-id set is the
persisted live-id bitmap (not empty), for every index state on which it
succeeds. -/
theorem claim_C3_amended (db : Database) (oldFim newFim : FieldsIdsMap)
    (out : TransformOutput)
    (h : Transform.prepare_for_documents_reindexing db oldFim newFim = .ok out) :
    out.newExternalDocumentsIds = [] ∧ out.replacedDocumentsIds = [] ∧
    out.fieldDistribution = db.fieldDistribution ∧
    out.newDocumentsIds = db.documentsIds := by
  unfold Transform.prepare_for_documents_reindexing at h
  cases hpk : db.primaryKey with
  | none => rw [hpk] at h; exact absurd h (by simp)
  | some pk =>
      rw [hpk] at h
      simp only [bind, Except.bind] at h
      cases hw : reindexWalk db oldFim ([], ([], newFim)) db.documentsIds with
      | error e => rw [hw] at h; exact absurd h (by simp)
      | ok r =>
          rw [hw] at h
          simp only [Except.ok.injEq] at h
          subst h
          exact ⟨rfl, rfl, rfl, rfl⟩

/-- The output of the re-indexing path on the concrete one-document index. -/
def c3out : TransformOutput :=
  match Transform.prepare_for_documents_reindexing exDb1 exFim exFim with
  | .ok out => out
  | .error _ => default

/-- C3 witness: the amended statement applied to the concrete one-document
index. -/
theorem claim_C3_amended_witness :
    c3out.newExternalDocumentsIds = [] ∧ c3out.replacedDocumentsIds = [] ∧
    c3out.fieldDistribution = exDb1.fieldDistribution ∧
    c3out.newDocumentsIds = exDb1.documentsIds :=
  claim_C3_amended exDb1 exFim exFim c3out rfl

theorem listContains_iff {a : Nat} {l : List Nat} : l.contains a = true ↔ a ∈ l := by
  simp [List.contains]

theorem contains_eq_false_of_not_mem {a : Nat} {l : List Nat} (h : a ∉ l) :
    l.contains a = false := by
  cases hc : l.contains a with
  | false => rfl
  | true => exact absurd (listContains_iff.mp hc) h

/-- C4: if an external id is not yet in the session builder, resolves in
the persisted external-id map to `prev`, `prev` is not yet in the
replaced-id set (the spec's "first time in the session", §4.F step 3.5),
and the just-assembled canonical record is identical to the persisted base
record of `prev`, then processing the record changes nothing but the
documents count: the replaced-id set, the new-id set, the external-id
builder, both sorters, the field-id map and the id allocator are all left
exactly as they were. -/
theorem claim_C4_exact_readd (db : Database) (mode : IndexDocumentsMethod)
    (mapping : List (Nat × Nat)) (primaryKeyId : Nat) (st : Transform)
    (d : EnrichedDocument) (prev : Nat) (base record : Record)
    (hasm : assembleRecord mapping primaryKeyId d = .ok record)
    (hb : alookup st.newExternalDocumentsIdsBuilder d.externalId = none)
    (hdb : alookup db.externalDocumentsIds d.externalId = some prev)
    (hrep : prev ∉ st.replacedDocumentsIds)
    (hbase : alookup db.documents prev = some base)
    (heq : base = record) :
    readOneDocument db mode mapping primaryKeyId st d =
      .ok { st with documentsCount := st.documentsCount + 1 } := by
  unfold readOneDocument
  have hc : st.replacedDocumentsIds.contains prev = false :=
    contains_eq_false_of_not_mem hrep
  simp only [bind, Except.bind, hasm, hb, hdb, hc, Bool.not_false, if_true, hbase, heq,
    eq_self_iff_true, Except.ok.injEq]
  cases st with
  | mk fim avail os fs rep new builder cnt =>
      simp only [Transform.mk.injEq, and_true, true_and]
      exact ⟨bmRemove_bmInsert (by simpa using hrep),
        aremove_append_single builder d.externalId prev (by simpa using hb)⟩

/-- C4 witness: ingesting the byte-identical copy of the persisted
document "a" of `exDb1` leaves the whole session state unchanged apart
from the documents count. -/
theorem claim_C4_exact_readd_witness :
    readOneDocument exDb1 IndexDocumentsMethod.replaceDocuments [(0, 0)] 1
      (Transform.new exDb1) ⟨"a", false, [(0, JVal.prim 7)]⟩ =
      .ok { Transform.new exDb1 with documentsCount := 1 } :=
  claim_C4_exact_readd exDb1 IndexDocumentsMethod.replaceDocuments [(0, 0)] 1
    (Transform.new exDb1) ⟨"a", false, [(0, JVal.prim 7)]⟩ 0
    [(0, JVal.prim 7)] [(0, JVal.prim 7)] rfl rfl rfl (by decide) rfl rfl

/-- C5: for an external id present in the session's external-id builder at
internal id `docid`, the session-removal branch inserts a
`Deletion`-prefixed empty record at `docid` into both sorters, removes the
id from the builder and `docid` from the new-id set, reports the branch as
fired, and leaves the replaced-id set unchanged. -/
theorem claim_C5_remove_current (st : Transform) (e : String) (docid : Nat)
    (h : alookup st.newExternalDocumentsIdsBuilder e = some docid) :
    removeFromCurrentSession st e =
      ({ st with
          originalSorter := st.originalSorter ++ [(docid, (Operation.deletion, []))],
          flattenedSorter := st.flattenedSorter ++ [(docid, (Operation.deletion, []))],
          newDocumentsIds := bmRemove docid st.newDocumentsIds,
          newExternalDocumentsIdsBuilder := aremove st.newExternalDocumentsIdsBuilder e },
        true) ∧
    (removeFromCurrentSession st e).1.replacedDocumentsIds = st.replacedDocumentsIds := by
  unfold removeFromCurrentSession
  rw [h]
  exact ⟨rfl, rfl⟩

/-- A session state holding one session-created document: external id "a"
at the freshly allocated internal id 5. -/
def c5st : Transform :=
  { Transform.new exDb1 with
      newExternalDocumentsIdsBuilder := [("a", 5)],
      newDocumentsIds := [5] }

/-- C5 witness: the session-removal branch evaluated on the concrete
session state `c5st`. -/
theorem claim_C5_remove_current_witness :
    removeFromCurrentSession c5st "a" =
      ({ c5st with
          originalSorter := c5st.originalSorter ++ [(5, (Operation.deletion, []))],
          flattenedSorter := c5st.flattenedSorter ++ [(5, (Operation.deletion, []))],
          newDocumentsIds := bmRemove 5 c5st.newDocumentsIds,
          newExternalDocumentsIdsBuilder := aremove c5st.newExternalDocumentsIdsBuilder "a" },
        true) ∧
    (removeFromCurrentSession c5st "a").1.replacedDocumentsIds = c5st.replacedDocumentsIds :=
  claim_C5_remove_current c5st "a" 5 rfl

/-- Soundness of the replaced-id set: every member is a persisted internal
id, i.e. lies in the range of the persisted external-id map. -/
def replacedSound (ext : List (String × Nat)) (st : Transform) : Prop :=
  ∀ d ∈ st.replacedDocumentsIds, d ∈ ext.map Prod.snd

theorem insertNewRecord_replaced {st : Transform} {docid : Nat} {record : Record}
    {st' : Transform} (h : insertNewRecord st docid record = .ok st') :
    st'.replacedDocumentsIds = st.replacedDocumentsIds := by
  unfold insertNewRecord at h
  simp only [bind, Except.bind] at h
  cases hr : flatten_from_fields_ids_map
      ({ st with
          newDocumentsIds := bmInsert docid st.newDocumentsIds,
          originalSorter := st.originalSorter ++
            [(docid, (Operation.addition, into_del_add_obkv record false true))] } :
        Transform).fieldsIdsMap record with
  | error e => rw [hr] at h; exact absurd h (by simp)
  | ok r =>
      rw [hr] at h
      simp only [Except.ok.injEq] at h
      subst h
      rfl

theorem readOneDocument_replacedSound {db : Database} {mode : IndexDocumentsMethod}
    {mapping : List (Nat × Nat)} {primaryKeyId : Nat} {st st' : Transform}
    {d : EnrichedDocument}
    (h : readOneDocument db mode mapping primaryKeyId st d = .ok st')
    (hs : replacedSound db.externalDocumentsIds st) :
    replacedSound db.externalDocumentsIds st' := by
  unfold readOneDocument at h
  simp only [bind, Except.bind] at h
  cases hasm : assembleRecord mapping primaryKeyId d with
  | error e => rw [hasm] at h; exact absurd h (by simp)
  | ok record =>
  rw [hasm] at h
  cases hbuilder : alookup st.newExternalDocumentsIdsBuilder d.externalId with
  | some docid =>
      rw [hbuilder] at h
      have := insertNewRecord_replaced h
      rw [replacedSound, this]
      exact hs
  | none =>
  rw [hbuilder] at h
  cases hext : alookup db.externalDocumentsIds d.externalId with
  | some docid =>
      rw [hext] at h
      have hmem : docid ∈ db.externalDocumentsIds.map Prod.snd := alookup_mem_map_snd hext
      have hsound1 : ∀ x ∈ bmInsert docid st.replacedDocumentsIds,
          x ∈ db.externalDocumentsIds.map Prod.snd := by
        intro x hx
        rcases mem_bmInsert hx with rfl | hx'
        · exact hmem
        · exact hs x hx'
      by_cases hnew : st.replacedDocumentsIds.contains docid
      · simp only [hnew, Bool.not_true, Bool.false_eq_true, if_false] at h
        have := insertNewRecord_replaced h
        rw [replacedSound, this]
        intro x hx
        exact hsound1 x hx
      · have hnew' : st.replacedDocumentsIds.contains docid = false := by
          cases hcc : st.replacedDocumentsIds.contains docid
          · rfl
          · exact absurd hcc hnew
        simp only [hnew', Bool.not_false, if_true] at h
        cases hdoc : alookup db.documents docid with
        | none => rw [hdoc] at h; exact absurd h (by simp)
        | some base =>
        simp only [hdoc] at h
        by_cases heq : base = record
        · rw [if_pos heq] at h
          simp only [Except.ok.injEq] at h
          subst h
          intro x hx
          simp only at hx
          have := mem_bmRemove hx
          exact hsound1 x this
        · rw [if_neg heq] at h
          cases hfl : flatten_from_fields_ids_map st.fieldsIdsMap base with
          | error e => rw [hfl] at h; exact absurd h (by simp)
          | ok r =>
              rw [hfl] at h
              have := insertNewRecord_replaced h
              rw [replacedSound, this]
              intro x hx
              exact hsound1 x hx
  | none =>
      rw [hext] at h
      cases hnext : st.availableDocumentsIds.next with
      | none => rw [hnext] at h; exact absurd h (by simp)
      | some p =>
          rw [hnext] at h
          have := insertNewRecord_replaced h
          rw [replacedSound, this]
          exact hs

theorem readLoop_replacedSound {db : Database} {mode : IndexDocumentsMethod}
    {mapping : List (Nat × Nat)} {primaryKeyId : Nat} :
    ∀ {docs : List EnrichedDocument} {st st' : Transform},
    readLoop db mode mapping primaryKeyId st docs = .ok st' →
    replacedSound db.externalDocumentsIds st →
    replacedSound db.externalDocumentsIds st' := by
  intro docs
  induction docs with
  | nil =>
      intro st st' h hs
      unfold readLoop at h
      simp only [Except.ok.injEq] at h
      subst h
      exact hs
  | cons d rest ih =>
      intro st st' h hs
      unfold readLoop at h
      simp only [bind, Except.bind] at h
      cases h1 : readOneDocument db mode mapping primaryKeyId st d with
      | error e => rw [h1] at h; exact absurd h (by simp)
      | ok st1 =>
          rw [h1] at h
          exact ih h (readOneDocument_replacedSound h1 hs)

theorem read_documents_replacedSound {db : Database} {mode : IndexDocumentsMethod}
    {st : Transform} {batchIndex : List (Nat × String)} {primaryKey : String}
    {docs : List EnrichedDocument} {db' : Database} {st' : Transform}
    (h : Transform.read_documents db mode st batchIndex primaryKey docs = .ok (db', st'))
    (hs : replacedSound db.externalDocumentsIds st) :
    replacedSound db.externalDocumentsIds st' ∧
    db'.externalDocumentsIds = db.externalDocumentsIds := by
  unfold Transform.read_documents at h
  simp only [bind, Except.bind] at h
  cases h1 : create_fields_mapping st.fieldsIdsMap batchIndex with
  | error e => rw [h1] at h; exact absurd h (by simp)
  | ok r =>
  simp only [h1] at h
  cases h2 : r.1.insert primaryKey with
  | none => simp only [h2] at h; exact absurd h (by simp)
  | some p =>
  simp only [h2] at h
  cases h3 : readLoop db mode r.2 p.2 { st with fieldsIdsMap := p.1 } docs with
  | error e => simp only [h3] at h; exact absurd h (by simp)
  | ok st2 =>
      simp only [h3] at h
      simp only [Except.ok.injEq, Prod.mk.injEq] at h
      obtain ⟨hdb, hst⟩ := h
      subst hdb
      subst hst
      refine ⟨readLoop_replacedSound h3 (fun x hx => hs x hx), rfl⟩

theorem removeFromDatabase_replacedSound {db : Database} {st : Transform} {e : String}
    {st' : Transform} {b : Bool} (h : removeFromDatabase db st e = .ok (st', b))
    (hs : replacedSound db.externalDocumentsIds st) :
    replacedSound db.externalDocumentsIds st' := by
  unfold removeFromDatabase at h
  cases hext : alookup db.externalDocumentsIds e with
  | none =>
      rw [hext] at h
      simp only [Except.ok.injEq, Prod.mk.injEq] at h
      obtain ⟨h1, _⟩ := h
      subst h1
      exact hs
  | some docid =>
      rw [hext] at h
      simp only [bind, Except.bind] at h
      have hmem : docid ∈ db.externalDocumentsIds.map Prod.snd := alookup_mem_map_snd hext
      have hsound1 : ∀ x ∈ bmInsert docid st.replacedDocumentsIds,
          x ∈ db.externalDocumentsIds.map Prod.snd := by
        intro x hx
        rcases mem_bmInsert hx with rfl | hx'
        · exact hmem
        · exact hs x hx'
      cases hdoc : alookup db.documents docid with
      | none => simp only [hdoc] at h; exact absurd h (by simp)
      | some base =>
          simp only [hdoc] at h
          cases hfl : flatten_from_fields_ids_map st.fieldsIdsMap base with
          | error er => rw [hfl] at h; exact absurd h (by simp)
          | ok r =>
              rw [hfl] at h
              simp only [Except.ok.injEq, Prod.mk.injEq] at h
              obtain ⟨h1, _⟩ := h
              subst h1
              intro x hx
              exact hsound1 x hx

theorem removeFromCurrentSession_replaced (st : Transform) (e : String) :
    (removeFromCurrentSession st e).1.replacedDocumentsIds = st.replacedDocumentsIds := by
  unfold removeFromCurrentSession
  cases alookup st.newExternalDocumentsIdsBuilder e <;> rfl

theorem removeOneDocument_replacedSound {db : Database} {st : Transform} {e : String}
    {st' : Transform} {b : Bool} (h : removeOneDocument db st e = .ok (st', b))
    (hs : replacedSound db.externalDocumentsIds st) :
    replacedSound db.externalDocumentsIds st' := by
  unfold removeOneDocument at h
  simp only [bind, Except.bind] at h
  cases h1 : removeFromDatabase db (removeFromCurrentSession st e).1 e with
  | error er => rw [h1] at h; exact absurd h (by simp)
  | ok r =>
      rw [h1] at h
      simp only [Except.ok.injEq, Prod.mk.injEq] at h
      obtain ⟨h2, _⟩ := h
      subst h2
      have hs1 : replacedSound db.externalDocumentsIds (removeFromCurrentSession st e).1 := by
        rw [replacedSound, removeFromCurrentSession_replaced]
        exact hs
      have h1' : removeFromDatabase db (removeFromCurrentSession st e).1 e = .ok (r.1, r.2) := by
        rw [h1]
      exact removeFromDatabase_replacedSound h1' hs1

theorem removeLoop_replacedSound {db : Database} :
    ∀ {ids : List String} {acc : Transform × Nat} {acc' : Transform × Nat},
    removeLoop db acc ids = .ok acc' →
    replacedSound db.externalDocumentsIds acc.1 →
    replacedSound db.externalDocumentsIds acc'.1 := by
  intro ids
  induction ids with
  | nil =>
      intro acc acc' h hs
      unfold removeLoop at h
      simp only [Except.ok.injEq] at h
      subst h
      exact hs
  | cons e rest ih =>
      intro acc acc' h hs
      unfold removeLoop at h
      simp only [bind, Except.bind] at h
      cases h1 : removeOneDocument db acc.1 e with
      | error er => rw [h1] at h; exact absurd h (by simp)
      | ok r =>
          rw [h1] at h
          exact ih h (removeOneDocument_replacedSound h1 hs)

theorem applySessionOp_replacedSound {mode : IndexDocumentsMethod} {db : Database}
    {st : Transform} {op : SessionOp} {db' : Database} {st' : Transform}
    (h : applySessionOp mode db st op = .ok (db', st'))
    (hs : replacedSound db.externalDocumentsIds st) :
    replacedSound db'.externalDocumentsIds st' ∧
    db'.externalDocumentsIds = db.externalDocumentsIds := by
  cases op with
  | ingest batchIndex pk docs =>
      have := read_documents_replacedSound h hs
      refine ⟨?_, this.2⟩
      rw [replacedSound, this.2]
      exact this.1
  | remove ids =>
      unfold applySessionOp at h
      simp only [Except.map] at h
      cases h1 : Transform.remove_documents db st ids with
      | error er => rw [h1] at h; exact absurd h (by simp)
      | ok r =>
          rw [h1] at h
          simp only [Except.ok.injEq, Prod.mk.injEq] at h
          obtain ⟨hdb, hst⟩ := h
          subst hdb
          subst hst
          unfold Transform.remove_documents at h1
          exact ⟨removeLoop_replacedSound h1 hs, rfl⟩

theorem runSession_replacedSound {mode : IndexDocumentsMethod} :
    ∀ {ops : List SessionOp} {db : Database} {st : Transform} {db' : Database}
    {st' : Transform},
    runSession mode (db, st) ops = .ok (db', st') →
    replacedSound db.externalDocumentsIds st →
    replacedSound db.externalDocumentsIds st' := by
  intro ops
  induction ops with
  | nil =>
      intro db st db' st' h hs
      unfold runSession at h
      simp only [Except.ok.injEq, Prod.mk.injEq] at h
      obtain ⟨_, h2⟩ := h
      subst h2
      exact hs
  | cons op rest ih =>
      intro db st db' st' h hs
      unfold runSession at h
      simp only [bind, Except.bind] at h
      cases h1 : applySessionOp mode db st op with
      | error er => rw [h1] at h; exact absurd h (by simp)
      | ok p =>
          rw [h1] at h
          obtain ⟨pdb, pst⟩ := p
          obtain ⟨hs1, hext⟩ := applySessionOp_replacedSound h1 hs
          have := ih h hs1
          rw [replacedSound, ← hext]
          exact fun x hx => this x hx

/-- C1 amended: over every interleaving of ingest and remove calls on one
session, the replaced-id set of the final state contains only persisted
internal ids — ids in the range of the persisted external-id map.  Hence
an id freshly allocated by the session is never in both sets; full
disjointness of the new-id and replaced-id sets fails (see the
counterexample: re-adding a persisted external id with different content
places its id in both sets). -/
theorem claim_C1_amended (mode : IndexDocumentsMethod) (db : Database)
    (ops : List SessionOp) (db' : Database) (st' : Transform)
    (h : runSession mode (db, Transform.new db) ops = .ok (db', st')) :
    ∀ d ∈ st'.replacedDocumentsIds, d ∈ db.externalDocumentsIds.map Prod.snd :=
  runSession_replacedSound h (fun x hx => absurd hx (List.not_mem_nil x))

/-- The final database and state of the concrete session `c1ops`. -/
def c1dbSt : Database × Transform :=
  match c1run with
  | .ok p => p
  | .error _ => (exDb1, Transform.new exDb1)

/-- C1 witness: the amended statement applied to the concrete session of
the counterexample; the replaced id 0 is indeed a persisted id. -/
theorem claim_C1_amended_witness : (0 : Nat) ∈ exDb1.externalDocumentsIds.map Prod.snd :=
  claim_C1_amended IndexDocumentsMethod.replaceDocuments exDb1 c1ops c1dbSt.1 c1dbSt.2
    rfl 0 (by decide)

theorem removeFromDatabase_builder {db : Database} {st : Transform} {e : String}
    {st' : Transform} {b : Bool} (h : removeFromDatabase db st e = .ok (st', b)) :
    st'.newExternalDocumentsIdsBuilder = st.newExternalDocumentsIdsBuilder := by
  unfold removeFromDatabase at h
  cases hext : alookup db.externalDocumentsIds e with
  | none =>
      rw [hext] at h
      simp only [Except.ok.injEq, Prod.mk.injEq] at h
      rw [← h.1]
  | some docid =>
      rw [hext] at h
      simp only [bind, Except.bind] at h
      cases hdoc : alookup db.documents docid with
      | none => simp only [hdoc] at h; exact absurd h (by simp)
      | some base =>
          simp only [hdoc] at h
          cases hfl : flatten_from_fields_ids_map st.fieldsIdsMap base with
          | error er => rw [hfl] at h; exact absurd h (by simp)
          | ok r =>
              rw [hfl] at h
              simp only [Except.ok.injEq, Prod.mk.injEq] at h
              rw [← h.1]

theorem removeFromDatabase_fired {db : Database} {st : Transform} {e : String}
    {st' : Transform} {b : Bool} (h : removeFromDatabase db st e = .ok (st', b)) :
    b = (alookup db.externalDocumentsIds e).isSome := by
  unfold removeFromDatabase at h
  cases hext : alookup db.externalDocumentsIds e with
  | none =>
      rw [hext] at h
      simp only [Except.ok.injEq, Prod.mk.injEq] at h
      rw [← h.2]
      rfl
  | some docid =>
      rw [hext] at h
      simp only [bind, Except.bind] at h
      cases hdoc : alookup db.documents docid with
      | none => simp only [hdoc] at h; exact absurd h (by simp)
      | some base =>
          simp only [hdoc] at h
          cases hfl : flatten_from_fields_ids_map st.fieldsIdsMap base with
          | error er => rw [hfl] at h; exact absurd h (by simp)
          | ok r =>
              rw [hfl] at h
              simp only [Except.ok.injEq, Prod.mk.injEq] at h
              rw [← h.2]
              rfl

theorem removeFromCurrentSession_fired (st : Transform) (e : String) :
    (removeFromCurrentSession st e).2 =
      (alookup st.newExternalDocumentsIdsBuilder e).isSome := by
  unfold removeFromCurrentSession
  cases alookup st.newExternalDocumentsIdsBuilder e <;> rfl

theorem removeFromCurrentSession_builder_ne (st : Transform) (e e' : String) (hne : e' ≠ e) :
    alookup (removeFromCurrentSession st e).1.newExternalDocumentsIdsBuilder e' =
      alookup st.newExternalDocumentsIdsBuilder e' := by
  unfold removeFromCurrentSession
  cases alookup st.newExternalDocumentsIdsBuilder e with
  | none => rfl
  | some docid =>
      simp only
      exact alookup_aremove_of_ne st.newExternalDocumentsIdsBuilder e e' (fun hk => hne hk.symm)

theorem removeOneDocument_fired {db : Database} {st : Transform} {e : String}
    {st' : Transform} {b : Bool} (h : removeOneDocument db st e = .ok (st', b)) :
    b = ((alookup st.newExternalDocumentsIdsBuilder e).isSome ||
      (alookup db.externalDocumentsIds e).isSome) := by
  unfold removeOneDocument at h
  simp only [bind, Except.bind] at h
  cases h1 : removeFromDatabase db (removeFromCurrentSession st e).1 e with
  | error er => rw [h1] at h; exact absurd h (by simp)
  | ok r =>
      rw [h1] at h
      simp only [Except.ok.injEq, Prod.mk.injEq] at h
      rw [← h.2]
      have h1' : removeFromDatabase db (removeFromCurrentSession st e).1 e = .ok (r.1, r.2) := by
        rw [h1]
      rw [removeFromCurrentSession_fired, removeFromDatabase_fired h1']

theorem removeOneDocument_builder_ne {db : Database} {st : Transform} {e : String}
    {st' : Transform} {b : Bool} (h : removeOneDocument db st e = .ok (st', b)) (e' : String)
    (hne : e' ≠ e) :
    alookup st'.newExternalDocumentsIdsBuilder e' =
      alookup st.newExternalDocumentsIdsBuilder e' := by
  unfold removeOneDocument at h
  simp only [bind, Except.bind] at h
  cases h1 : removeFromDatabase db (removeFromCurrentSession st e).1 e with
  | error er => rw [h1] at h; exact absurd h (by simp)
  | ok r =>
      rw [h1] at h
      simp only [Except.ok.injEq, Prod.mk.injEq] at h
      rw [← h.1]
      have h1' : removeFromDatabase db (removeFromCurrentSession st e).1 e = .ok (r.1, r.2) := by
        rw [h1]
      rw [removeFromDatabase_builder h1']
      exact removeFromCurrentSession_builder_ne st e e' hne

theorem removeOneDocument_noop {db : Database} {st : Transform} {e : String}
    (h1 : alookup st.newExternalDocumentsIdsBuilder e = none)
    (h2 : alookup db.externalDocumentsIds e = none) :
    removeOneDocument db st e = .ok (st, false) := by
  unfold removeOneDocument removeFromCurrentSession removeFromDatabase
  simp only [h1, h2, bind, Except.bind, Bool.or_false]

theorem removeLoop_count {db : Database} :
    ∀ {ids : List String}, ids.Nodup → ∀ {st : Transform} {n : Nat} {st' : Transform}
    {n' : Nat}, removeLoop db (st, n) ids = .ok (st', n') →
    n' = n + List.countP (fun e =>
      (alookup st.newExternalDocumentsIdsBuilder e).isSome ||
      (alookup db.externalDocumentsIds e).isSome) ids := by
  intro ids
  induction ids with
  | nil =>
      intro _ st n st' n' h
      unfold removeLoop at h
      simp only [Except.ok.injEq, Prod.mk.injEq] at h
      simp [← h.2]
  | cons e rest ih =>
      intro hnd st n st' n' h
      have hnd' : rest.Nodup := (List.nodup_cons.mp hnd).2
      have hne : e ∉ rest := (List.nodup_cons.mp hnd).1
      unfold removeLoop at h
      simp only [bind, Except.bind] at h
      cases h1 : removeOneDocument db st e with
      | error er => rw [h1] at h; exact absurd h (by simp)
      | ok r =>
          rw [h1] at h
          have h1' : removeOneDocument db st e = .ok (r.1, r.2) := by rw [h1]
          have hb := removeOneDocument_fired h1'
          have hrec := ih hnd' h
          have hcong : List.countP (fun e' =>
              (alookup r.1.newExternalDocumentsIdsBuilder e').isSome ||
              (alookup db.externalDocumentsIds e').isSome) rest =
            List.countP (fun e' =>
              (alookup st.newExternalDocumentsIdsBuilder e').isSome ||
              (alookup db.externalDocumentsIds e').isSome) rest := by
            apply List.countP_congr
            intro e' he'
            have : e' ≠ e := fun hk => hne (hk ▸ he')
            rw [removeOneDocument_builder_ne h1' e' this]
          rw [hcong] at hrec
          rw [List.countP_cons]
          simp only [← hb]
          cases hr2 : r.2 with
          | true => rw [hr2] at hrec; simp [hrec]; omega
          | false => rw [hr2] at hrec; simp [hrec]

/-- C6: `remove_documents` processes the sorted, de-duplicated input; its
returned count equals the number of processed (distinct) external ids for
which at least one branch fired — present in the session builder or in the
persisted external-id map; the processed list holds exactly the distinct
ids of the input; and an id present in neither place is not counted and
leaves the whole session state unchanged. -/
theorem claim_C6_remove_count (db : Database) (st : Transform) (toRemove : List String)
    (st' : Transform) (n : Nat)
    (h : Transform.remove_documents db st toRemove = .ok (st', n)) :
    n = List.countP (fun e =>
        (alookup st.newExternalDocumentsIdsBuilder e).isSome ||
        (alookup db.externalDocumentsIds e).isSome)
      (dedupAdj (List.insertionSort strLeProp toRemove)) ∧
    (∀ e, e ∈ dedupAdj (List.insertionSort strLeProp toRemove) ↔ e ∈ toRemove) ∧
    (dedupAdj (List.insertionSort strLeProp toRemove)).Nodup ∧
    (∀ e, alookup st.newExternalDocumentsIdsBuilder e = none →
      alookup db.externalDocumentsIds e = none →
      removeOneDocument db st e = .ok (st, false)) := by
  have hsorted : (List.insertionSort strLeProp toRemove).Sorted strLeProp :=
    List.sorted_insertionSort strLeProp toRemove
  have hnodup : (dedupAdj (List.insertionSort strLeProp toRemove)).Nodup :=
    sorted_dedupAdj_nodup strLeProp (fun x y hxy hyx => strLe_antisymm hxy hyx) _ hsorted
  refine ⟨?_, ?_, hnodup, ?_⟩
  · unfold Transform.remove_documents at h
    have := removeLoop_count hnodup h
    simpa using this
  · intro e
    rw [mem_dedupAdj]
    exact (List.perm_insertionSort strLeProp toRemove).mem_iff
  · intro e h1 h2
    exact removeOneDocument_noop h1 h2

/-- The result of removing `["zz", "a", "zz"]` from a fresh session against
`exDb1`: only "a" exists, so exactly one removal is counted. -/
def c6res : Except Err (Transform × Nat) :=
  Transform.remove_documents exDb1 (Transform.new exDb1) ["zz", "a", "zz"]

/-- The final state of that removal. -/
def c6st : Transform :=
  match c6res with
  | .ok p => p.1
  | .error _ => Transform.new exDb1

/-- The returned count of that removal. -/
def c6n : Nat :=
  match c6res with
  | .ok p => p.2
  | .error _ => 0

/-- C6 witness: the count equation applied to the concrete removal of
`["zz", "a", "zz"]` (one distinct id fires). -/
theorem claim_C6_remove_count_witness :
    c6n = List.countP (fun e =>
        (alookup (Transform.new exDb1).newExternalDocumentsIdsBuilder e).isSome ||
        (alookup exDb1.externalDocumentsIds e).isSome)
      (dedupAdj (List.insertionSort strLeProp ["zz", "a", "zz"])) :=
  (claim_C6_remove_count exDb1 (Transform.new exDb1) ["zz", "a", "zz"] c6st c6n rfl).1

theorem indexOfName_append_some {names : List String} {n : String} {i : Nat}
    (h : indexOfName names n = some i) (t : List String) :
    indexOfName (names ++ t) n = some i := by
  induction names generalizing i with
  | nil => exact absurd h (by simp [indexOfName])
  | cons x xs ih =>
      simp only [indexOfName, List.append_eq] at h ⊢
      by_cases hx : (x == n) = true
      · rw [if_pos hx] at h ⊢
        exact h
      · rw [if_neg hx] at h ⊢
        cases hj : indexOfName xs n with
        | none => rw [hj] at h; exact absurd h (by simp)
        | some j =>
            rw [hj] at h
            simp only [Option.map_some'] at h
            rw [ih hj]
            simpa using h

theorem indexOfName_append_self {names : List String} {n : String}
    (h : indexOfName names n = none) :
    indexOfName (names ++ [n]) n = some names.length := by
  induction names with
  | nil => simp [indexOfName]
  | cons x xs ih =>
      simp only [indexOfName, List.append_eq] at h ⊢
      by_cases hx : (x == n) = true
      · rw [if_pos hx] at h; exact absurd h (by simp)
      · rw [if_neg hx] at h ⊢
        cases hj : indexOfName xs n with
        | some j => rw [hj] at h; exact absurd h (by simp)
        | none =>
            rw [ih hj]
            simp

theorem indexOfName_append_none_ge {names : List String} {n : String} :
    ∀ {t : List String} {j : Nat}, indexOfName names n = none →
    indexOfName (names ++ t) n = some j → names.length ≤ j := by
  induction names with
  | nil => intro t j _ _; exact Nat.zero_le j
  | cons x xs ih =>
      intro t j h h2
      simp only [indexOfName, List.append_eq] at h h2
      by_cases hx : (x == n) = true
      · rw [if_pos hx] at h; exact absurd h (by simp)
      · rw [if_neg hx] at h h2
        cases hj : indexOfName xs n with
        | some i => rw [hj] at h; exact absurd h (by simp)
        | none =>
            cases hj2 : indexOfName (xs ++ t) n with
            | none => rw [hj2] at h2; exact absurd h2 (by simp)
            | some j' =>
                rw [hj2] at h2
                simp only [Option.map_some'] at h2
                have := ih hj hj2
                have hjj : j' + 1 = j := by simpa using h2
                simp only [List.length_cons]
                omega

/-- Extension of one field-id map by another: the smaller map's names are
a prefix of the larger map's. -/
def FimExt (m m' : FieldsIdsMap) : Prop := ∃ t, m'.names = m.names ++ t

theorem fimExt_refl (m : FieldsIdsMap) : FimExt m m := ⟨[], by simp⟩

theorem fimExt_trans {m1 m2 m3 : FieldsIdsMap} (h1 : FimExt m1 m2) (h2 : FimExt m2 m3) :
    FimExt m1 m3 := by
  obtain ⟨t1, ht1⟩ := h1
  obtain ⟨t2, ht2⟩ := h2
  exact ⟨t1 ++ t2, by rw [ht2, ht1, List.append_assoc]⟩

theorem id_mono {m m' : FieldsIdsMap} {n : String} {i : Nat} (hext : FimExt m m')
    (h : m.id n = some i) : m'.id n = some i := by
  obtain ⟨t, ht⟩ := hext
  unfold FieldsIdsMap.id at h ⊢
  rw [ht]
  exact indexOfName_append_some h t

theorem id_new_ge {m m' : FieldsIdsMap} {n : String} {j : Nat} (hext : FimExt m m')
    (h : m.id n = none) (h2 : m'.id n = some j) : m.names.length ≤ j := by
  obtain ⟨t, ht⟩ := hext
  unfold FieldsIdsMap.id at h h2
  rw [ht] at h2
  exact indexOfName_append_none_ge h h2

theorem insert_cases {m m' : FieldsIdsMap} {n : String} {i : Nat}
    (h : m.insert n = some (m', i)) :
    (m.id n = some i ∧ m' = m) ∨
    (m.id n = none ∧ m.names.length ≤ 65535 ∧ i = m.names.length ∧
      m'.names = m.names ++ [n]) := by
  unfold FieldsIdsMap.insert at h
  cases hid : indexOfName m.names n with
  | some j =>
      rw [hid] at h
      simp only [Option.some.injEq, Prod.mk.injEq] at h
      left
      refine ⟨?_, h.1.symm⟩
      unfold FieldsIdsMap.id
      rw [hid, h.2]
  | none =>
      rw [hid] at h
      by_cases hlen : m.names.length ≤ 65535
      · rw [if_pos hlen] at h
        simp only [Option.some.injEq, Prod.mk.injEq] at h
        right
        refine ⟨?_, hlen, h.2.symm, by rw [← h.1]⟩
        unfold FieldsIdsMap.id
        rw [hid]
      · rw [if_neg hlen] at h
        exact absurd h (by simp)

theorem insert_ext {m m' : FieldsIdsMap} {n : String} {i : Nat}
    (h : m.insert n = some (m', i)) : FimExt m m' := by
  rcases insert_cases h with ⟨_, rfl⟩ | ⟨_, _, _, hn⟩
  · exact fimExt_refl _
  · exact ⟨[n], hn⟩

theorem insert_id {m m' : FieldsIdsMap} {n : String} {i : Nat}
    (h : m.insert n = some (m', i)) : m'.id n = some i := by
  rcases insert_cases h with ⟨hid, rfl⟩ | ⟨hid, _, hi, hn⟩
  · exact hid
  · unfold FieldsIdsMap.id at hid ⊢
    rw [hn, hi]
    exact indexOfName_append_self hid

theorem insert_none_iff {m : FieldsIdsMap} {n : String} :
    m.insert n = none ↔ m.id n = none ∧ 65535 < m.names.length := by
  unfold FieldsIdsMap.insert FieldsIdsMap.id
  cases hid : indexOfName m.names n with
  | some j => simp
  | none =>
      by_cases hlen : m.names.length ≤ 65535
      · simp [if_pos hlen]
        omega
      · simp [if_neg hlen]
        omega

theorem cfmAux_ext : ∀ {l : List (Nat × String)} {m : FieldsIdsMap}
    {mp : List (Nat × Nat)} {m' : FieldsIdsMap} {mp' : List (Nat × Nat)},
    cfmAux m mp l = .ok (m', mp') → FimExt m m' := by
  intro l
  induction l with
  | nil =>
      intro m mp m' mp' h
      unfold cfmAux at h
      simp only [Except.ok.injEq, Prod.mk.injEq] at h
      rw [← h.1]
      exact fimExt_refl m
  | cons p rest ih =>
      intro m mp m' mp' h
      obtain ⟨f, nn⟩ := p
      unfold cfmAux at h
      cases hid : m.id nn with
      | some i =>
          rw [hid] at h
          exact ih h
      | none =>
          rw [hid] at h
          cases hins : m.insert nn with
          | none => rw [hins] at h; exact absurd h (by simp)
          | some q =>
              rw [hins] at h
              have hq : m.insert nn = some (q.1, q.2) := by rw [hins]
              exact fimExt_trans (insert_ext hq) (ih h)

theorem cfmAux_mp_prefix : ∀ {l : List (Nat × String)} {m : FieldsIdsMap}
    {mp : List (Nat × Nat)} {m' : FieldsIdsMap} {mp' : List (Nat × Nat)},
    cfmAux m mp l = .ok (m', mp') → ∃ ext, mp' = mp ++ ext := by
  intro l
  induction l with
  | nil =>
      intro m mp m' mp' h
      unfold cfmAux at h
      simp only [Except.ok.injEq, Prod.mk.injEq] at h
      exact ⟨[], by rw [← h.2]; simp⟩
  | cons p rest ih =>
      intro m mp m' mp' h
      obtain ⟨f, nn⟩ := p
      unfold cfmAux at h
      cases hid : m.id nn with
      | some i =>
          rw [hid] at h
          obtain ⟨ext, hext⟩ := ih h
          exact ⟨(f, i) :: ext, by rw [hext]; simp⟩
      | none =>
          rw [hid] at h
          cases hins : m.insert nn with
          | none => rw [hins] at h; exact absurd h (by simp)
          | some q =>
              rw [hins] at h
              obtain ⟨ext, hext⟩ := ih h
              exact ⟨(f, q.2) :: ext, by rw [hext]; simp⟩

theorem cfmAux_reuse : ∀ {l : List (Nat × String)} {m : FieldsIdsMap}
    {mp : List (Nat × Nat)} {m' : FieldsIdsMap} {mp' : List (Nat × Nat)},
    cfmAux m mp l = .ok (m', mp') →
    ∀ f nn i, (f, nn) ∈ l → m.id nn = some i → (f, i) ∈ mp' := by
  intro l
  induction l with
  | nil =>
      intro m mp m' mp' h f nn i hmem _
      exact absurd hmem (List.not_mem_nil _)
  | cons p rest ih =>
      intro m mp m' mp' h f nn i hmem hid
      obtain ⟨g, gn⟩ := p
      unfold cfmAux at h
      rcases List.mem_cons.mp hmem with hhead | htail
      · injection hhead with h1 h2
        subst h1
        subst h2
        rw [hid] at h
        obtain ⟨ext, hext⟩ := cfmAux_mp_prefix h
        rw [hext]
        simp
      · cases hgid : m.id gn with
        | some j =>
            rw [hgid] at h
            exact ih h f nn i htail hid
        | none =>
            rw [hgid] at h
            cases hins : m.insert gn with
            | none => rw [hins] at h; exact absurd h (by simp)
            | some q =>
                rw [hins] at h
                have hq : m.insert gn = some (q.1, q.2) := by rw [hins]
                exact ih h f nn i htail (id_mono (insert_ext hq) hid)

theorem cfmAux_fresh : ∀ {l : List (Nat × String)} {m : FieldsIdsMap}
    {mp : List (Nat × Nat)} {m' : FieldsIdsMap} {mp' : List (Nat × Nat)},
    cfmAux m mp l = .ok (m', mp') →
    ∀ f nn, (f, nn) ∈ l → m.id nn = none →
    ∃ j, (f, j) ∈ mp' ∧ m.names.length ≤ j ∧ m'.id nn = some j := by
  intro l
  induction l with
  | nil =>
      intro m mp m' mp' h f nn hmem _
      exact absurd hmem (List.not_mem_nil _)
  | cons p rest ih =>
      intro m mp m' mp' h f nn hmem hid
      obtain ⟨g, gn⟩ := p
      unfold cfmAux at h
      rcases List.mem_cons.mp hmem with hhead | htail
      · injection hhead with h1 h2
        subst h1
        subst h2
        rw [hid] at h
        cases hins : m.insert nn with
        | none => rw [hins] at h; exact absurd h (by simp)
        | some q =>
            rw [hins] at h
            have hq : m.insert nn = some (q.1, q.2) := by rw [hins]
            rcases insert_cases hq with ⟨hid2, _⟩ | ⟨_, _, hi, _⟩
            · rw [hid] at hid2; exact absurd hid2 (by simp)
            · refine ⟨q.2, ?_, by omega, ?_⟩
              · obtain ⟨ext, hext⟩ := cfmAux_mp_prefix h
                rw [hext]
                simp
              · exact id_mono (cfmAux_ext h) (insert_id hq)
      · cases hgid : m.id gn with
        | some j =>
            rw [hgid] at h
            obtain ⟨j', hj1, hj2, hj3⟩ := ih h f nn htail hid
            exact ⟨j', hj1, hj2, hj3⟩
        | none =>
            rw [hgid] at h
            cases hins : m.insert gn with
            | none => rw [hins] at h; exact absurd h (by simp)
            | some q =>
                rw [hins] at h
                have hq : m.insert gn = some (q.1, q.2) := by rw [hins]
                have hextq := insert_ext hq
                cases hid2 : q.1.id nn with
                | none =>
                    obtain ⟨j', hj1, hj2, hj3⟩ := ih h f nn htail hid2
                    refine ⟨j', hj1, ?_, hj3⟩
                    obtain ⟨t, ht⟩ := hextq
                    rw [ht] at hj2
                    simp only [List.length_append] at hj2
                    omega
                | some j' =>
                    refine ⟨j', cfmAux_reuse h f nn j' htail hid2, ?_, ?_⟩
                    · exact id_new_ge hextq hid hid2
                    · exact id_mono (cfmAux_ext h) hid2

/-- Unconditional append of a name, modelling the growth of the field-id
map when capacity is not exhausted. -/
def forceInsert (m : FieldsIdsMap) (n : String) : FieldsIdsMap := ⟨m.names ++ [n]⟩

/-- Number of distinct names in the list that the map does not yet
contain, counted in processing order. -/
def newCount (m : FieldsIdsMap) : List String → Nat
  | [] => 0
  | n :: rest =>
      match m.id n with
      | some _ => newCount m rest
      | none => 1 + newCount (forceInsert m n) rest

theorem cfmAux_error_iff : ∀ {l : List (Nat × String)} {m : FieldsIdsMap}
    {mp : List (Nat × Nat)}, m.names.length ≤ 65536 →
    (cfmAux m mp l = .error Err.attributeLimitReached ↔
      65536 < m.names.length + newCount m (l.map Prod.snd)) := by
  intro l
  induction l with
  | nil =>
      intro m mp hm
      simp only [cfmAux, newCount, List.map_nil]
      constructor
      · intro h; exact absurd h (by simp)
      · intro h; omega
  | cons p rest ih =>
      intro m mp hm
      obtain ⟨f, nn⟩ := p
      simp only [cfmAux, List.map_cons, newCount]
      cases hid : m.id nn with
      | some i => exact ih hm
      | none =>
          by_cases hlen : m.names.length ≤ 65535
          · have hins : m.insert nn = some (forceInsert m nn, m.names.length) := by
              unfold FieldsIdsMap.insert forceInsert
              unfold FieldsIdsMap.id at hid
              rw [hid, if_pos hlen]
            rw [hins]
            have hm' : (forceInsert m nn).names.length ≤ 65536 := by
              unfold forceInsert
              simp only [List.length_append, List.length_singleton]
              omega
            rw [ih hm']
            unfold forceInsert
            simp only [List.length_append, List.length_singleton]
            omega
          · have hins : m.insert nn = none := by
              unfold FieldsIdsMap.insert
              unfold FieldsIdsMap.id at hid
              rw [hid, if_neg hlen]
            rw [hins]
            constructor
            · intro _
              have hge : 65535 < m.names.length := Nat.lt_of_not_le hlen
              dsimp only
              omega
            · intro _; rfl

/-- C7: the batch-local to index-global field-id translation (a) is
deterministic — it depends only on the set of (local id, name) pairs, not
on their order, because the dictionary is iterated in ascending local-id
order; (b) maps a batch entry whose name already has an index-global id to
that existing id; (c) allocates every new name a fresh id, one the index
map did not contain; and (d) fails with `AttributeLimitReached` exactly
when the 16-bit field-id space cannot hold the map plus the batch's new
distinct names. -/
theorem claim_C7_fields_mapping :
    (∀ (m : FieldsIdsMap) (b1 b2 : List (Nat × String)), b1.Perm b2 →
      (b1.map Prod.fst).Nodup →
      create_fields_mapping m b1 = create_fields_mapping m b2) ∧
    (∀ (m : FieldsIdsMap) (batch : List (Nat × String)) (m' : FieldsIdsMap)
      (mp : List (Nat × Nat)), create_fields_mapping m batch = .ok (m', mp) →
      ∀ f nn i, (f, nn) ∈ batch → m.id nn = some i → (f, i) ∈ mp) ∧
    (∀ (m : FieldsIdsMap) (batch : List (Nat × String)) (m' : FieldsIdsMap)
      (mp : List (Nat × Nat)), create_fields_mapping m batch = .ok (m', mp) →
      ∀ f nn, (f, nn) ∈ batch → m.id nn = none →
        ∃ j, (f, j) ∈ mp ∧ m.names.length ≤ j ∧ m'.id nn = some j) ∧
    (∀ (m : FieldsIdsMap) (batch : List (Nat × String)), m.names.length ≤ 65536 →
      (create_fields_mapping m batch = .error Err.attributeLimitReached ↔
        65536 < m.names.length +
          newCount m ((List.insertionSort fidPairLe batch).map Prod.snd))) := by
  refine ⟨?_, ?_, ?_, ?_⟩
  · intro m b1 b2 hperm hnd
    unfold create_fields_mapping
    congr 1
    have hperm' : (List.insertionSort fidPairLe b1).Perm (List.insertionSort fidPairLe b2) :=
      ((List.perm_insertionSort fidPairLe b1).trans hperm).trans
        (List.perm_insertionSort fidPairLe b2).symm
    have hsorted1 := List.sorted_insertionSort fidPairLe b1
    have hsorted2 := List.sorted_insertionSort fidPairLe b2
    have hnd1 : ((List.insertionSort fidPairLe b1).map Prod.fst).Nodup :=
      (((List.perm_insertionSort fidPairLe b1).map Prod.fst).nodup_iff).mpr hnd
    have hnd2 : ((List.insertionSort fidPairLe b2).map Prod.fst).Nodup := by
      refine (((List.perm_insertionSort fidPairLe b2).map Prod.fst).nodup_iff).mpr ?_
      exact ((hperm.map Prod.fst).nodup_iff).mp hnd
    have hne1 : (List.insertionSort fidPairLe b1).Pairwise (fun a b => a.1 ≠ b.1) := by
      rw [List.Nodup, List.pairwise_map] at hnd1
      exact hnd1
    have hne2 : (List.insertionSort fidPairLe b2).Pairwise (fun a b => a.1 ≠ b.1) := by
      rw [List.Nodup, List.pairwise_map] at hnd2
      exact hnd2
    have hstrict1 : (List.insertionSort fidPairLe b1).Pairwise
        (fun a b : Nat × String => a.1 < b.1) := by
      refine (hsorted1.and hne1).imp ?_
      intro a b hab
      exact Nat.lt_of_le_of_ne hab.1 hab.2
    have hstrict2 : (List.insertionSort fidPairLe b2).Pairwise
        (fun a b : Nat × String => a.1 < b.1) := by
      refine (hsorted2.and hne2).imp ?_
      intro a b hab
      exact Nat.lt_of_le_of_ne hab.1 hab.2
    haveI : IsAntisymm (Nat × String) (fun a b : Nat × String => a.1 < b.1) :=
      ⟨fun a b h1 h2 => absurd (Nat.lt_trans h1 h2) (Nat.lt_irrefl _)⟩
    exact List.eq_of_perm_of_sorted hperm' hstrict1 hstrict2
  · intro m batch m' mp h f nn i hmem hid
    unfold create_fields_mapping at h
    exact cfmAux_reuse h f nn i
      ((List.perm_insertionSort fidPairLe batch).mem_iff.mpr hmem) hid
  · intro m batch m' mp h f nn hmem hid
    unfold create_fields_mapping at h
    exact cfmAux_fresh h f nn
      ((List.perm_insertionSort fidPairLe batch).mem_iff.mpr hmem) hid
  · intro m batch hm
    unfold create_fields_mapping
    exact cfmAux_error_iff hm

/-- The translation produced for a small batch against the one-field map. -/
def c7res : Except Err (FieldsIdsMap × List (Nat × Nat)) :=
  create_fields_mapping exFim [(1, "g"), (0, "f")]

/-- The mapping component of `c7res`. -/
def c7mp : List (Nat × Nat) :=
  match c7res with
  | .ok r => r.2
  | .error _ => []

/-- C7 witness: determinism under permutation, reuse of the existing id of
"f", fresh allocation for "g", and non-failure while capacity remains, all
at a concrete batch. -/
theorem claim_C7_fields_mapping_witness :
    create_fields_mapping exFim [(1, "g"), (0, "f")] =
      create_fields_mapping exFim [(0, "f"), (1, "g")] ∧
    (0, 0) ∈ c7mp ∧
    (∃ j, (1, j) ∈ c7mp ∧ exFim.names.length ≤ j ∧
      (match c7res with | .ok r => r.1 | .error _ => exFim).id "g" = some j) ∧
    ¬ (create_fields_mapping exFim [(1, "g"), (0, "f")] = .error Err.attributeLimitReached) := by
  refine ⟨?_, ?_, ?_, ?_⟩
  · exact claim_C7_fields_mapping.1 exFim [(1, "g"), (0, "f")] [(0, "f"), (1, "g")]
      (by decide) (by decide)
  · exact claim_C7_fields_mapping.2.1 exFim [(1, "g"), (0, "f")]
      (match c7res with | .ok r => r.1 | .error _ => exFim) c7mp rfl 0 "f" 0
      (by decide) rfl
  · exact claim_C7_fields_mapping.2.2.1 exFim [(1, "g"), (0, "f")]
      (match c7res with | .ok r => r.1 | .error _ => exFim) c7mp rfl 1 "g"
      (by decide) rfl
  · intro herr
    have := (claim_C7_fields_mapping.2.2.2 exFim [(1, "g"), (0, "f")] (by decide)).mp herr
    exact absurd this (by decide)

theorem isObjB_eq_false_of_flat {v : JVal} (h : shouldFlatten v = false) :
    v.isObjB = false := by
  cases v with
  | obj kvs => exact absurd h (by simp [shouldFlatten])
  | prim n => rfl
  | str s => rfl
  | arr xs => rfl

theorem flattenPairs_flat :
    ∀ v p, ∀ q ∈ flattenPairs p v, shouldFlatten q.2 = false := by
  intro v
  induction v using JVal.myInduction with
  | hprim n =>
      intro p q hq
      simp only [flattenPairs, List.mem_singleton] at hq
      rw [hq]
      rfl
  | hstr s =>
      intro p q hq
      simp only [flattenPairs, List.mem_singleton] at hq
      rw [hq]
      rfl
  | harr xs ih =>
      intro p q hq
      simp only [flattenPairs, List.mem_append] at hq
      rcases hq with hq | hq
      · have haux : ∀ (l : List JVal),
            (∀ x ∈ l, ∀ p' q', q' ∈ flattenPairs p' x → shouldFlatten q'.2 = false) →
            ∀ q' ∈ flattenArrObjs p l, shouldFlatten q'.2 = false := by
          intro l
          induction l with
          | nil => intro _ q' hq'; simp [flattenArrObjs] at hq'
          | cons x rest ihl =>
              intro hall q' hq'
              simp only [flattenArrObjs, List.mem_append] at hq'
              rcases hq' with hq' | hq'
              · by_cases hx : x.isObjB = true
                · rw [if_pos hx] at hq'
                  exact hall x (by simp) p q' hq'
                · rw [if_neg hx] at hq'
                  exact absurd hq' (List.not_mem_nil q')
              · exact ihl (fun y hy => hall y (by simp [hy])) q' hq'
        exact haux xs ih q hq
      · by_cases hc : ((xs.filter (fun x => !x.isObjB)).isEmpty && !xs.isEmpty) = true
        · rw [if_pos hc] at hq
          exact absurd hq (List.not_mem_nil q)
        · rw [if_neg hc] at hq
          simp only [List.mem_singleton] at hq
          rw [hq]
          simp only [shouldFlatten]
          rw [List.any_eq_false]
          intro x hx
          have := (List.mem_filter.mp hx).2
          simp at this
          simp [this]
  | hobj kvs ih =>
      intro p q hq
      simp only [flattenPairs] at hq
      have haux : ∀ (l : List (String × JVal)),
          (∀ kv ∈ l, ∀ p' q', q' ∈ flattenPairs p' kv.2 → shouldFlatten q'.2 = false) →
          ∀ q' ∈ flattenObjList p l, shouldFlatten q'.2 = false := by
        intro l
        induction l with
        | nil => intro _ q' hq'; simp [flattenObjList] at hq'
        | cons kv rest ihl =>
            intro hall q' hq'
            obtain ⟨k, v'⟩ := kv
            simp only [flattenObjList, List.mem_append] at hq'
            rcases hq' with hq' | hq'
            · exact hall (k, v') (by simp) (p ++ "." ++ k) q' hq'
            · exact ihl (fun y hy => hall y (by simp [hy])) q' hq'
      exact haux kvs ih q hq

theorem combineSibling_flat {a b : JVal} (ha : shouldFlatten a = false)
    (hb : shouldFlatten b = false) : shouldFlatten (combineSibling a b) = false := by
  have hbo : b.isObjB = false := isObjB_eq_false_of_flat hb
  cases a with
  | arr xs =>
      simp only [combineSibling, shouldFlatten] at ha ⊢
      rw [List.any_append, ha]
      simp [hbo]
  | obj kvs => exact absurd ha (by simp [shouldFlatten])
  | prim n =>
      show (JVal.isObjB b || false) = false
      rw [hbo]
      rfl
  | str s =>
      show (JVal.isObjB b || false) = false
      rw [hbo]
      rfl

theorem groupMergePairs_flat {ps : List (String × JVal)}
    (h : ∀ q ∈ ps, shouldFlatten q.2 = false) :
    ∀ q ∈ groupMergePairs ps, shouldFlatten q.2 = false := by
  have haux : ∀ (l : List (String × JVal)) (acc : List (String × JVal)),
      (∀ q ∈ acc, shouldFlatten q.2 = false) →
      (∀ q ∈ l, shouldFlatten q.2 = false) →
      ∀ q ∈ l.foldl (fun acc p =>
        if (alookup acc p.1).isSome then
          acc.map (fun q => if q.1 == p.1 then (q.1, combineSibling q.2 p.2) else q)
        else acc ++ [p]) acc, shouldFlatten q.2 = false := by
    intro l
    induction l with
    | nil => intro acc hacc _ q hq; exact hacc q hq
    | cons p rest ihl =>
        intro acc hacc hl q hq
        simp only [List.foldl_cons] at hq
        have hp : shouldFlatten p.2 = false := hl p (by simp)
        have hrest : ∀ q ∈ rest, shouldFlatten q.2 = false :=
          fun y hy => hl y (by simp [hy])
        by_cases hc : (alookup acc p.1).isSome = true
        · rw [if_pos hc] at hq
          refine ihl _ ?_ hrest q hq
          intro y hy
          rw [List.mem_map] at hy
          obtain ⟨y0, hy0, rfl⟩ := hy
          by_cases hk : (y0.1 == p.1) = true
          · rw [if_pos hk]
            exact combineSibling_flat (hacc y0 hy0) hp
          · rw [if_neg hk]
            exact hacc y0 hy0
        · rw [if_neg hc] at hq
          refine ihl _ ?_ hrest q hq
          intro y hy
          rcases List.mem_append.mp hy with hy | hy
          · exact hacc y hy
          · simp only [List.mem_singleton] at hy
            rw [hy]
            exact hp
  intro q hq
  exact haux ps [] (by intro y hy; exact absurd hy (List.not_mem_nil y)) h q hq

theorem flatten_serde_json_flat (doc : List (String × JVal)) :
    ∀ q ∈ flatten_serde_json doc, shouldFlatten q.2 = false := by
  unfold flatten_serde_json
  apply groupMergePairs_flat
  intro q hq
  rw [List.mem_flatten] at hq
  obtain ⟨ys, hys, hq⟩ := hq
  rw [List.mem_map] at hys
  obtain ⟨p0, hp0, rfl⟩ := hys
  exact flattenPairs_flat p0.2 p0.1 q hq

theorem mergeValues_flat {a b : JVal} (ha : shouldFlatten a = false)
    (hb : shouldFlatten b = false) : shouldFlatten (mergeValues a b) = false := by
  have hao : a.isObjB = false := isObjB_eq_false_of_flat ha
  have hbo : b.isObjB = false := isObjB_eq_false_of_flat hb
  cases a with
  | arr xs =>
      cases b with
      | arr ys =>
          simp only [mergeValues, shouldFlatten] at ha hb ⊢
          rw [List.any_append, ha, hb]
          rfl
      | prim n =>
          simp only [mergeValues, shouldFlatten] at ha ⊢
          rw [List.any_append, ha]
          simp [JVal.isObjB]
      | str s =>
          simp only [mergeValues, shouldFlatten] at ha ⊢
          rw [List.any_append, ha]
          simp [JVal.isObjB]
      | obj kvs => exact absurd hb (by simp [shouldFlatten])
  | obj kvs => exact absurd ha (by simp [shouldFlatten])
  | prim n =>
      cases b with
      | arr ys =>
          simp only [mergeValues, shouldFlatten] at hb ⊢
          rw [List.any_append, hb]
          simp [JVal.isObjB]
      | obj kvs => exact absurd hb (by simp [shouldFlatten])
      | prim n2 => simp [mergeValues, shouldFlatten, JVal.isObjB]
      | str s2 => simp [mergeValues, shouldFlatten, JVal.isObjB]
  | str s =>
      cases b with
      | arr ys =>
          simp only [mergeValues, shouldFlatten] at hb ⊢
          rw [List.any_append, hb]
          simp [JVal.isObjB]
      | obj kvs => exact absurd hb (by simp [shouldFlatten])
      | prim n2 => simp [mergeValues, shouldFlatten, JVal.isObjB]
      | str s2 => simp [mergeValues, shouldFlatten, JVal.isObjB]

theorem emitMerged_flat : ∀ (l : List (Nat × JVal)),
    (∀ q ∈ l, shouldFlatten q.2 = false) →
    ∀ q ∈ emitMerged l, shouldFlatten q.2 = false
  | [], h => by simp [emitMerged]
  | [p], h => by
      intro q hq
      simp only [emitMerged, List.mem_singleton] at hq
      rw [hq]
      exact h p (by simp)
  | p :: p2 :: rest, h => by
      intro q hq
      simp only [emitMerged] at hq
      by_cases hk : p.1 = p2.1
      · rw [if_pos hk] at hq
        rcases List.mem_cons.mp hq with hq | hq
        · rw [hq]
          exact mergeValues_flat (h p (by simp)) (h p2 (by simp))
        · exact emitMerged_flat rest (fun y hy => h y (by simp [hy])) q hq
      · rw [if_neg hk] at hq
        rcases List.mem_cons.mp hq with hq | hq
        · rw [hq]
          exact h p (by simp)
        · exact emitMerged_flat (p2 :: rest) (fun y hy => h y (by
            rcases List.mem_cons.mp hy with hy | hy
            · simp [hy]
            · simp [hy])) q hq
termination_by l => l.length

theorem assignFieldIds_values : ∀ {l : List (String × JVal)} {fim : FieldsIdsMap}
    {acc : Record} {fim' : FieldsIdsMap} {out : Record},
    assignFieldIds fim acc l = .ok (fim', out) →
    ∀ q ∈ out, q.2 ∈ acc.map Prod.snd ∨ q.2 ∈ l.map Prod.snd := by
  intro l
  induction l with
  | nil =>
      intro fim acc fim' out h q hq
      unfold assignFieldIds at h
      simp only [Except.ok.injEq, Prod.mk.injEq] at h
      left
      rw [← h.2] at hq
      exact List.mem_map.mpr ⟨q, hq, rfl⟩
  | cons p rest ih =>
      intro fim acc fim' out h q hq
      unfold assignFieldIds at h
      cases hins : fim.insert p.1 with
      | none => rw [hins] at h; exact absurd h (by simp)
      | some r =>
          rw [hins] at h
          rcases ih h q hq with hcase | hcase
          · rw [List.map_append] at hcase
            rcases List.mem_append.mp hcase with hcase | hcase
            · left; exact hcase
            · right
              simp only [List.map_cons, List.mem_cons]
              left
              simpa using hcase
          · right
            simp only [List.map_cons, List.mem_cons]
            right
            exact hcase

theorem create_obkv_ok {kv : List (Nat × JVal)} {out : Record}
    (h : create_obkv_from_key_value kv = .ok out) : out = emitMerged kv := by
  unfold create_obkv_from_key_value at h
  by_cases hs : sortedByKeyB kv = false
  · rw [if_pos hs] at h; exact absurd h (by simp)
  · rw [if_neg hs] at h
    cases kv with
    | nil => exact absurd h (by simp)
    | cons p rest =>
        have h' : kvWriterWrite (emitMerged (p :: rest)) = .ok out := h
        unfold kvWriterWrite at h'
        by_cases hst : strictlySortedByKeyB (emitMerged (p :: rest)) = true
        · rw [if_pos hst] at h'
          simp only [Except.ok.injEq] at h'
          exact h'.symm
        · rw [if_neg hst] at h'
          exact absurd h' (by simp)

theorem flatten_none_of_all_flat (fim : FieldsIdsMap) (r : Record)
    (h : ∀ p ∈ r, shouldFlatten p.2 = false) :
    flatten_from_fields_ids_map fim r = .ok (fim, none) := by
  unfold flatten_from_fields_ids_map
  have hall : r.all (fun p => !shouldFlatten p.2) = true := by
    rw [List.all_eq_true]
    intro p hp
    simp [h p hp]
  rw [if_pos hall]

theorem flatten_some_or_error (fim : FieldsIdsMap) (r : Record)
    (hguard : r.all (fun p => !shouldFlatten p.2) = false) (fim' : FieldsIdsMap)
    (res : Option Record) (h : flatten_from_fields_ids_map fim r = .ok (fim', res)) :
    ∃ r', res = some r' := by
  unfold flatten_from_fields_ids_map at h
  rw [if_neg (by simp [hguard])] at h
  simp only [bind, Except.bind] at h
  cases h1 : recoverNames fim (r.filter (fun p => shouldFlatten p.2)) with
  | error e => simp [h1] at h
  | ok doc =>
  simp only [h1] at h
  cases h2 : assignFieldIds fim [] (flatten_serde_json doc) with
  | error e => simp [h2] at h
  | ok r2 =>
  simp only [h2] at h
  cases h3 : create_obkv_from_key_value
      (List.insertionSort recPairLe (r.filter (fun p => !shouldFlatten p.2) ++ r2.2)) with
  | error e => simp [h3] at h
  | ok buffer =>
      simp only [h3, Except.ok.injEq, Prod.mk.injEq] at h
      exact ⟨buffer, h.2.symm⟩

/-- C8: flattening returns `none` exactly when no value of the record is
nested according to the per-value pre-check; and flattening the record
produced by a successful flattening returns `none`, so flattening is
idempotent. -/
theorem claim_C8_flatten_idempotent :
    (∀ (fim : FieldsIdsMap) (r : Record), (∀ p ∈ r, shouldFlatten p.2 = false) →
      flatten_from_fields_ids_map fim r = .ok (fim, none)) ∧
    (∀ (fim : FieldsIdsMap) (r : Record) (fim' : FieldsIdsMap) (res : Option Record),
      flatten_from_fields_ids_map fim r = .ok (fim', res) →
      (res = none ↔ ∀ p ∈ r, shouldFlatten p.2 = false)) ∧
    (∀ (fim : FieldsIdsMap) (r : Record) (fim' : FieldsIdsMap) (r' : Record),
      flatten_from_fields_ids_map fim r = .ok (fim', some r') →
      flatten_from_fields_ids_map fim' r' = .ok (fim', none)) := by
  have hflat : ∀ (fim : FieldsIdsMap) (r : Record) (fim' : FieldsIdsMap) (r' : Record),
      flatten_from_fields_ids_map fim r = .ok (fim', some r') →
      ∀ p ∈ r', shouldFlatten p.2 = false := by
    intro fim r fim' r' h
    by_cases hguard : r.all (fun p => !shouldFlatten p.2) = true
    · unfold flatten_from_fields_ids_map at h
      rw [if_pos hguard] at h
      simp at h
    · have hguard' : r.all (fun p => !shouldFlatten p.2) = false := by
        cases hg : r.all (fun p => !shouldFlatten p.2)
        · rfl
        · exact absurd hg hguard
      unfold flatten_from_fields_ids_map at h
      rw [if_neg (by simp [hguard'])] at h
      simp only [bind, Except.bind] at h
      cases h1 : recoverNames fim (r.filter (fun p => shouldFlatten p.2)) with
      | error e => simp [h1] at h
      | ok doc =>
      simp only [h1] at h
      cases h2 : assignFieldIds fim [] (flatten_serde_json doc) with
      | error e => simp [h2] at h
      | ok r2 =>
      simp only [h2] at h
      cases h3 : create_obkv_from_key_value
          (List.insertionSort recPairLe (r.filter (fun p => !shouldFlatten p.2) ++ r2.2)) with
      | error e => simp [h3] at h
      | ok buffer =>
          simp only [h3, Except.ok.injEq, Prod.mk.injEq, Option.some.injEq] at h
          obtain ⟨hfim, hr'⟩ := h
          subst hr'
          have h2' : assignFieldIds fim [] (flatten_serde_json doc) = .ok (r2.1, r2.2) := by
            rw [h2]
          have hkv : ∀ q ∈ List.insertionSort recPairLe
              (r.filter (fun p => !shouldFlatten p.2) ++ r2.2),
              shouldFlatten q.2 = false := by
            intro q hq
            have hq' := (List.perm_insertionSort recPairLe _).mem_iff.mp hq
            rcases List.mem_append.mp hq' with hcase | hcase
            · have := (List.mem_filter.mp hcase).2
              simpa using this
            · rcases assignFieldIds_values h2' q hcase with hv | hv
              · simp at hv
              · rw [List.mem_map] at hv
                obtain ⟨q0, hq0, hq0v⟩ := hv
                rw [← hq0v]
                exact flatten_serde_json_flat doc q0 hq0
          have hbuf := create_obkv_ok h3
          rw [hbuf]
          exact emitMerged_flat _ hkv
  refine ⟨flatten_none_of_all_flat, ?_, ?_⟩
  · intro fim r fim' res h
    by_cases hguard : r.all (fun p => !shouldFlatten p.2) = true
    · have hall : ∀ p ∈ r, shouldFlatten p.2 = false := by
        intro p hp
        have := List.all_eq_true.mp hguard p hp
        simpa using this
      rw [flatten_none_of_all_flat fim r hall] at h
      simp only [Except.ok.injEq, Prod.mk.injEq] at h
      rw [← h.2]
      exact iff_of_true rfl hall
    · have hguard' : r.all (fun p => !shouldFlatten p.2) = false := by
        cases hg : r.all (fun p => !shouldFlatten p.2)
        · rfl
        · exact absurd hg hguard
      obtain ⟨r', hr'⟩ := flatten_some_or_error fim r hguard' fim' res h
      subst hr'
      simp only [reduceCtorEq, false_iff, not_forall]
      have := List.all_eq_false.mp hguard'
      obtain ⟨p, hp, hpf⟩ := this
      refine ⟨p, hp, ?_⟩
      simp at hpf
      simp [hpf]
  · intro fim r fim' r' h
    have hall := hflat fim r fim' r' h
    have hfim : flatten_from_fields_ids_map fim r = .ok (fim', some r') := h
    have : ∀ p ∈ r', shouldFlatten p.2 = false := hall
    exact flatten_none_of_all_flat fim' r' this

/-- The one-field map used by the flattening witness. -/
def exFim8 : FieldsIdsMap := ⟨["a"]⟩

/-- C8 witness: flattening a flat record returns `none`, and flattening the
output of flattening the nested record `{a: {b: 1}}` returns `none`. -/
theorem claim_C8_flatten_idempotent_witness :
    flatten_from_fields_ids_map exFim8 [(0, JVal.prim 1)] = .ok (exFim8, none) ∧
    flatten_from_fields_ids_map (⟨["a", "a.b"]⟩ : FieldsIdsMap) [(1, JVal.prim 1)] =
      .ok (⟨["a", "a.b"]⟩, none) :=
  ⟨claim_C8_flatten_idempotent.1 exFim8 [(0, JVal.prim 1)] (by
      intro p hp
      simp only [List.mem_singleton] at hp
      rw [hp]
      rfl),
   claim_C8_flatten_idempotent.2.2 exFim8 [(0, JVal.obj [("b", JVal.prim 1)])]
     (⟨["a", "a.b"]⟩ : FieldsIdsMap) [(1, JVal.prim 1)] rfl⟩
